import Mathlib

/-!
Verification of the Gudhi persistence-matrix core against its specification.

Shallow embedding (over the Z/2 instantiation where a field choice is needed) of:
* `Z2_field_element` (gudhi/Z2_field.h);
* `Z2_set_column` (gudhi/column_types/z2_set_column.h);
* `Shared_multi_field_element` (gudhi/Fields/Multi_field_shared.h);
* the chain instantiation of the column `Intrusive_list_column`
  (gudhi/Persistence_matrix/columns/intrusive_list_column.h);
* `Chain_matrix_with_row_access_with_removals` over Z/2
  (gudhi/chain_matrix/chain_matrix_0011.h), with the chain column type
  (gudhi/column_types/chain_columns/chain_intrusive_list_column.h);
* `Chain_representative_cycles::update_representative_cycles`
  (gudhi/Persistence_matrix/chain_rep_cycles.h);
* `Id_to_index_overlay::remove_last`
  (gudhi/Persistence_matrix/overlay_ididx_to_matidx.h).

Machine integers (`unsigned int`, `index`) are modelled as `ℕ`; the `int` fields
that use `-1` as a sentinel (`pivot_`, `Bar::death`) are modelled as `ℤ`.
Fallible operations (`std::map::at`, thrown exceptions, unbounded loops) are
modelled with `Option`/`Except` and explicit fuel.
-/

namespace GudhiPM

/-! ## `Z2_field_element` (gudhi/Z2_field.h)

The element is a single bit `element_ : bool`; the value constructor reduces an
integer modulo 2 (`element_(element % 2)`). -/

structure Z2_field_element where
  element : Bool
deriving DecidableEq

/-- Value constructor `Z2_field_element(int element) : element_(element % 2)`. -/
def Z2_field_element.ofNat (v : ℕ) : Z2_field_element := ⟨v % 2 == 1⟩

/-- `operator*=` : `element_ = (element_ && f.element_)`. -/
def Z2_field_element.mul (a b : Z2_field_element) : Z2_field_element :=
  ⟨a.element && b.element⟩

/-- `operator+=` : `element_ = (element_ != f.element_)`. -/
def Z2_field_element.add (a b : Z2_field_element) : Z2_field_element :=
  ⟨a.element != b.element⟩

/-- `get_inverse() : return element_ ? Z2_field_element() : Z2_field_element(1);`
(the default constructor yields the bit 0, `Z2_field_element(1)` the bit 1). -/
def Z2_field_element.get_inverse (a : Z2_field_element) : Z2_field_element :=
  if a.element then ⟨false⟩ else ⟨true⟩

/-- `get_multiplicative_identity() : return Z2_field_element(1);` -/
def Z2_field_element.get_multiplicative_identity : Z2_field_element :=
  Z2_field_element.ofNat 1

/-- `get_additive_identity() : return Z2_field_element();` -/
def Z2_field_element.get_additive_identity : Z2_field_element := ⟨false⟩

/-! ## `Shared_multi_field_element` (gudhi/Fields/Multi_field_shared.h)

The static state fixed by `initialize(minimum, maximum)`: the list `primes_` of
the primes in the interval, their product `productOfAllCharacteristics_`, and
the CRT partials `partials_[i] = (M/pᵢ)^(pᵢ-1) mod M`.  Element values are
natural numbers, kept reduced modulo the product; `multiplicativeID_` is the
constant 1. -/

structure MFState where
  primes : List ℕ
  product : ℕ
  partials : List ℕ
deriving DecidableEq

/-- The primes collected by the GMP loop of `initialize`: starting from
`minimum` (or, when composite, the next prime above it) and stepping with
`mpz_nextprime` while `≤ maximum`; these are exactly the primes of the
interval `[minimum, maximum]`. -/
def primesIn (minimum maximum : ℕ) : List ℕ :=
  (List.range (maximum + 1)).filter (fun p => decide (minimum ≤ p) && decide (Nat.Prime p))

/-- `Shared_multi_field_element::initialize(minimum, maximum)` with its
invalid-argument checks.  The two primality tests of the source
(`_is_prime` trial division and `mpz_probab_prime_p`) both recognize exactly
the primes, so the early `minimum == maximum && !_is_prime` check rejects the
same inputs as the final emptiness check and is folded into it. -/
def initField (minimum maximum : ℕ) : Except String MFState :=
  if maximum < 2 then .error "Characteristic must be strictly positive"
  else if minimum > maximum then .error "The given interval is not valid."
  else
    let primes := primesIn minimum maximum
    if primes.isEmpty then .error "The given interval does not contain a prime number."
    else
      let product := primes.foldl (· * ·) 1
      .ok ⟨primes, product, primes.map (fun p => ((product / p) ^ (p - 1)) % product)⟩

/-- `mpz_invert(inv, x, n)`: the modular inverse of `x` modulo `n` (the source
only calls it on invertible arguments). -/
def modInv (x n : ℕ) : ℕ := ((x : ZMod n)⁻¹).val

/-- `get_partial_multiplicative_identity(productOfCharacteristics)`: 0 when the
argument is 0 is replaced by `multiplicativeID_ = 1` (reduced by the element
constructor); otherwise the sum, reduced modulo the product at each `+=`, of
the partials of the primes dividing the argument. -/
def getPartialMultiplicativeIdentity (mf : MFState) (productOfCharacteristics : ℕ) : ℕ :=
  if productOfCharacteristics = 0 then 1 % mf.product
  else
    (mf.primes.zip mf.partials).foldl
      (fun acc pp => if productOfCharacteristics % pp.1 = 0 then (acc + pp.2) % mf.product else acc)
      0

/-- `get_partial_inverse(productOfCharacteristics)` on an element of value `x`:
`QR ← gcd(x, Q)`; if `QR = Q` the pair (zero element, `multiplicativeID_`);
otherwise `QT ← Q / QR` and the pair
(`get_partial_multiplicative_identity(QT) * x⁻¹ mod QT`, reduced modulo the
full product by `operator*=`, paired with `QT`). -/
def getPartialInverse (mf : MFState) (x productOfCharacteristics : ℕ) : ℕ × ℕ :=
  let qr := Nat.gcd x productOfCharacteristics
  if qr = productOfCharacteristics then (0, 1)
  else
    let qt := productOfCharacteristics / qr
    ((getPartialMultiplicativeIdentity mf qt * modInv x qt) % mf.product, qt)

/-- `get_inverse() : return get_partial_inverse(productOfAllCharacteristics_).first;` -/
def getInverseMF (mf : MFState) (x : ℕ) : ℕ := (getPartialInverse mf x mf.product).1

/-! ## `Z2_set_column` (gudhi/column_types/z2_set_column.h)

`column_` is a `std::set` of cells ordered by row index; for Z/2 a cell is just
its row index. -/

structure Z2_set_column where
  dim : ℕ
  cells : Finset ℕ
deriving DecidableEq

/-- One step of `Z2_set_column::add`: if the source cell is present in the
target it is erased, otherwise inserted. -/
def z2Toggle (col : Finset ℕ) (v : ℕ) : Finset ℕ :=
  if v ∈ col then col.erase v else insert v col

/-- `Z2_set_column::add(column)`: iterate over the source's cells (a
`std::set`, hence in increasing row order, each row once) and toggle each in
the target.  `dim_` is untouched. -/
def Z2_set_column.add (target source : Z2_set_column) : Z2_set_column :=
  { target with cells := (source.cells.sort (· ≤ ·)).foldl z2Toggle target.cells }

/-! ## Chain instantiation of the column `Intrusive_list_column`
(gudhi/Persistence_matrix/columns/intrusive_list_column.h), Z/2 options
(`is_z2`, `isNonBasic`, not `is_of_boundary_type`).

The cells are the set of row indices; the chain option carries the pivot and
the dimension option the dimension.  `Chain_column_option` itself
(`get_pivot` / `swap_pivots` accessors over a stored pivot) is not under the
analyzed sources; the stored pivot field is modelled from the spec:
"for chain columns, a designated pivot ... is tracked explicitly". -/

structure PMChainColumn where
  cells : Finset ℕ
  pivot : ℕ
  dim : ℕ
deriving DecidableEq

/-- `operator*=(val)`, Z/2 branch of the chain instantiation: when
`val % 2 == 0` the column throws `std::invalid_argument`; otherwise (scaling by
the multiplicative identity) nothing happens. -/
def PMChainColumn.mulScalar (c : PMChainColumn) (val : ℕ) : Except String PMChainColumn :=
  if val % 2 = 0 then .error "A chain column should not be multiplied by 0."
  else .ok c

/-- `multiply_and_add(val, column)` (the overload scaling the *target*), Z/2
branch of the chain instantiation: `if (val)` perform `_add` (symmetric
difference; when a cell equal to the stored pivot is cancelled, pivots and
dimensions of the two columns are swapped); otherwise throw
`std::invalid_argument`.  Returns (target, source) after the call. -/
def PMChainColumn.multiplyTargetAndAdd (c : PMChainColumn) (val : ℕ) (other : PMChainColumn) :
    Except String (PMChainColumn × PMChainColumn) :=
  if val ≠ 0 then
    let cells' := symmDiff c.cells other.cells
    let pivotIsZeroed := c.pivot ∈ c.cells ∧ c.pivot ∈ other.cells
    if pivotIsZeroed then
      .ok (⟨cells', other.pivot, other.dim⟩, ⟨other.cells, c.pivot, c.dim⟩)
    else
      .ok (⟨cells', c.pivot, c.dim⟩, other)
  else .error "A chain column should not be multiplied by 0."

/-! ## `Id_to_index_overlay::remove_last`
(gudhi/Persistence_matrix/overlay_ididx_to_matidx.h)

The overlay holds the dictionary `idToIndex_` (face ID → column index), the
counter `nextIndex_`, and the underlying matrix, here an abstract state `M`
with its own fallible `remove_last`. -/

structure Overlay (M : Type) where
  idToIndex : List (ℕ × ℕ)
  nextIndex : ℕ
  matrix : M

/-- `Id_to_index_overlay::remove_last()`: on an empty dictionary, return
immediately; otherwise `matrix_.remove_last()` and, for boundary-type options,
decrement `nextIndex_` and erase the dictionary entry whose value is the new
`nextIndex_` (running past the end of the dictionary, which the source comments
rule out, is a failure). -/
def Overlay.removeLast {M : Type} (matrixRemoveLast : M → Option M) (isBoundaryType : Bool)
    (o : Overlay M) : Option (Overlay M) :=
  if o.idToIndex.isEmpty then some o
  else do
    let m ← matrixRemoveLast o.matrix
    if isBoundaryType then
      let n := o.nextIndex - 1
      match o.idToIndex.find? (fun p => p.2 == n) with
      | none => none
      | some entry => some ⟨o.idToIndex.erase entry, n, m⟩
    else
      some ⟨o.idToIndex, o.nextIndex, m⟩

end GudhiPM

namespace GudhiPM

/-! ## `Chain_matrix_with_row_access_with_removals` over Z/2
(gudhi/chain_matrix/chain_matrix_0011.h), with the chain column of
gudhi/column_types/chain_columns/chain_intrusive_list_column.h.

With Z/2 coefficients a column is the `Finset` of its row indices
(`tmp_column_type = std::set<index>`, `cell_rep_type = index`), the cell-level
`operator+=` is the symmetric difference of the row sets
(`Intrusive_list_column::_add`: ordered merge with cancellation), and the
working set addition `_add_to` is insert-if-absent / erase-if-present.

The `Column_pairing_option` state referenced through `is_paired()` /
`get_paired_chain_index()` / `assign_paired_chain()` and the
`Chain_pairing_option` barcode storage referenced through `_barcode()` /
`_indexToBar()` are plain state holders whose implementations are not under
the analyzed sources; they are modelled from the spec: a chain column is
either unpaired (F) or mutually paired with one partner (H/G), and the
barcode is a sequence of bars `(dimension, birth, death)` with `death = -1`
for essential classes, `indexToBar_` mapping an index to its bar. -/

structure Bar where
  dim : ℕ
  birth : ℕ
  death : ℤ
deriving DecidableEq

/-- Chain column: row-index set, the explicitly tracked `pivot_ : int` (−1 for
the empty chain), the pairing state and the dimension. -/
structure ChainCol where
  cells : Finset ℕ
  pivot : ℤ
  paired : Option ℕ
  dim : ℕ
deriving DecidableEq

/-- `is_non_zero(rowIndex)` applied to the stored `int` pivot (the source
converts it to the unsigned row-index type; a negative pivot is never a stored
row). -/
def ChainCol.isNonZero (c : ChainCol) (r : ℤ) : Bool :=
  decide (0 ≤ r) && decide (r.toNat ∈ c.cells)

/-- `*(set.rbegin())` on the ordered row-index set: its greatest element. -/
def setMax (t : Finset ℕ) : Option ℕ :=
  if h : t.Nonempty then some (t.max' h) else none

/-- `std::map::emplace(key, val)`: inserts only when the key is absent. -/
def emplace (m : ℕ → Option ℕ) (key val : ℕ) : ℕ → Option ℕ :=
  fun q => if q = key then some ((m key).getD val) else m q

/-- The chain-matrix state: `matrix_` (whose keys in insert-only histories are
exactly `0..nextInsertIndex_-1`, hence a positional list), the dictionary
`pivotToColumnIndex_`, `nextInsertIndex_`, the `dimensions_` histogram and
`maxDim_`, and the barcode state `barcode_` / `indexToBar_` (the latter mapping
to positions in `barcode_`). -/
structure CState where
  cols : List ChainCol
  pivMap : ℕ → Option ℕ
  nextInsertIndex : ℕ
  dimensions : List ℕ
  maxDim : ℤ
  barcode : List Bar
  indexToBar : ℕ → Option ℕ

/-- The empty chain matrix (default constructor). -/
def CState.empty : CState := ⟨[], fun _ => none, 0, [], -1, [], fun _ => none⟩

/-- `Intrusive_list_chain_column::operator+=(column)`: cell-level `_add`
(symmetric difference over Z/2), then, when the stored pivot of the target was
cancelled, swap the dictionary entries `pivotToColumnIndex_->at(pivot_)` and
`at(column.get_pivot())` and swap the two stored pivots.  Returns the updated
dictionary, target and source. -/
def chainAdd (pm : ℕ → Option ℕ) (target source : ChainCol) :
    Option ((ℕ → Option ℕ) × ChainCol × ChainCol) :=
  let t : ChainCol := { target with cells := symmDiff target.cells source.cells }
  if t.isNonZero target.pivot then some (pm, t, source)
  else do
    let v1 ← pm target.pivot.toNat
    let v2 ← pm source.pivot.toNat
    some (fun q => if q = target.pivot.toNat then some v2
            else if q = source.pivot.toNat then some v1 else pm q,
          { t with pivot := source.pivot }, { source with pivot := target.pivot })

/-- `add_to(sourceColumnIndex, targetColumnIndex)`:
`matrix_.at(targetColumnIndex) += matrix_.at(sourceColumnIndex)`. -/
def CState.addTo (s : CState) (srcIdx tgtIdx : ℕ) : Option CState := do
  let ct ← s.cols[tgtIdx]?
  let cs ← s.cols[srcIdx]?
  let r ← chainAdd s.pivMap ct cs
  some { s with cols := (s.cols.set tgtIdx r.2.1).set srcIdx r.2.2, pivMap := r.1 }

/-- The `while (matrix_.at(currentPivot).is_paired())` loop of
`_reduce_boundary`: reduce by the paired column owning the working set's
largest index (`_reduce_by_G`: XOR the column in, record its paired partner in
`chainsInH`), with the early exit when the working set becomes empty.  Fuel
models the loop's termination. -/
def reduceLoop1 (s : CState) : ℕ → Finset ℕ → List ℕ → Option (Finset ℕ × List ℕ)
  | 0, _, _ => none
  | fuel + 1, tmp, chainsInH => do
    let m ← setMax tmp
    let cp ← s.pivMap m
    let col ← s.cols[cp]?
    match col.paired with
    | none => some (tmp, chainsInH)
    | some h =>
      let tmp' := symmDiff tmp col.cells
      if tmp' = ∅ then some (tmp', chainsInH ++ [h])
      else reduceLoop1 s fuel tmp' (chainsInH ++ [h])

/-- The `while (!column.empty())` loop of `_reduce_boundary`: reduce by the
column owning the current largest index; `_reduce_by_F` (unpaired owner)
records the owner in `currentEssentialCycleIndices`, `_reduce_by_G` (paired
owner) records the partner in `chainsInH`. -/
def reduceLoop2 (s : CState) :
    ℕ → Finset ℕ → List ℕ → List ℕ → Option (List ℕ × List ℕ)
  | 0, _, _, _ => none
  | fuel + 1, tmp, chainsInH, essentials =>
    if tmp = ∅ then some (chainsInH, essentials)
    else do
      let m ← setMax tmp
      let cp ← s.pivMap m
      let col ← s.cols[cp]?
      match col.paired with
      | none => reduceLoop2 s fuel (symmDiff tmp col.cells) chainsInH (essentials ++ [cp])
      | some h => reduceLoop2 s fuel (symmDiff tmp col.cells) (chainsInH ++ [h]) essentials

/-- `_build_from_H`: insert `nextInsertIndex_` into the working set, then XOR
in each column recorded in `chainsInH`. -/
def buildFromH (s : CState) (tmp : Finset ℕ) (chainsInH : List ℕ) : Option (Finset ℕ) :=
  chainsInH.foldlM
    (fun acc h => do
      let col ← s.cols[h]?
      pure (symmDiff acc col.cells))
    (insert s.nextInsertIndex tmp)

/-- `_update_largest_death_in_F(chainsInF, toUpdate)`, Z/2 branch: `add_to`
each F column after the first into `toUpdate`. -/
def updateLargestDeathInF (s : CState) (chainsInF : List ℕ) (toUpdate : ℕ) : Option CState :=
  (chainsInF.drop 1).foldlM (fun st j => st.addTo j toUpdate) s

/-- `_insert_chain(column, dimension)` (no pair): record the new pivot
(`*(column.rbegin())` → `nextInsertIndex_`) in the dictionary, append the new
chain column (constructed with pivot = its largest row), append an essential
bar `(dimension, nextInsertIndex_, -1)` and point `indexToBar_` at it. -/
def insertChainU (s : CState) (column : Finset ℕ) (dimension : ℕ) : Option CState := do
  let p ← setMax column
  let k := s.nextInsertIndex
  some { s with
    cols := s.cols ++ [⟨column, (p : ℤ), none, dimension⟩],
    pivMap := emplace s.pivMap p k,
    nextInsertIndex := k + 1,
    barcode := s.barcode ++ [⟨dimension, k, -1⟩],
    indexToBar := emplace s.indexToBar k s.barcode.length }

/-- `_insert_chain(column, dimension, pair)`: record the new pivot, append the
new chain column, pair it mutually with `pair`, set the death of the bar of
`matrix_.at(pair).get_pivot()` to `nextInsertIndex_` and point `indexToBar_`
of the new index at that bar. -/
def insertChainP (s : CState) (column : Finset ℕ) (dimension : ℕ) (pair : ℕ) :
    Option CState := do
  let p ← setMax column
  let k := s.nextInsertIndex
  let pairCol ← s.cols[pair]?
  let bIdx ← s.indexToBar pairCol.pivot.toNat
  let bar ← s.barcode[bIdx]?
  some { s with
    cols := (s.cols.set pair { pairCol with paired := some k })
              ++ [⟨column, (p : ℤ), some pair, dimension⟩],
    pivMap := emplace s.pivMap p k,
    nextInsertIndex := k + 1,
    barcode := s.barcode.set bIdx { bar with death := (k : ℤ) },
    indexToBar := emplace s.indexToBar k bIdx }

/-- The `maxDim_` / `dimensions_` bookkeeping at the start of
`insert_boundary`. -/
def bumpDim (s : CState) (dim : ℕ) : CState :=
  let s1 := if s.maxDim < (dim : ℤ) then { s with maxDim := (dim : ℤ) } else s
  let ds := if s1.dimensions.length ≤ dim
    then s1.dimensions ++ List.replicate (dim + 1 - s1.dimensions.length) 0
    else s1.dimensions
  { s1 with dimensions := ds.set dim (ds.getD dim 0 + 1) }

/-- `insert_boundary(boundary, currentEssentialCycleIndices)` =
`_reduce_boundary`: empty boundary → insert the chain `{nextInsertIndex_}`
unpaired; otherwise run the two reduction loops; if the working set empties in
the paired-reduction loop, build `σ + Σ colₕ` and insert it unpaired;
otherwise pair the built column with
`chain_fp = currentEssentialCycleIndices.front()`.  Returns the new state, the
essential-cycle indices (the out-parameter of the source) and `chainsInH`. -/
def insertBoundary (s0 : CState) (boundary : List ℕ) :
    Option (CState × List ℕ × List ℕ) := do
  let dim := if boundary.length = 0 then 0 else boundary.length - 1
  let s := bumpDim s0 dim
  let k := s.nextInsertIndex
  let column := boundary.toFinset
  if boundary.isEmpty then
    let s' ← insertChainU s (insert k column) dim
    some (s', [], [])
  else do
    let r1 ← reduceLoop1 s (k + 1) column []
    if r1.1 = ∅ then
      let newChain ← buildFromH s ∅ r1.2
      let s' ← insertChainU s newChain dim
      some (s', [], r1.2)
    else do
      let r2 ← reduceLoop2 s (k + 1) r1.1 r1.2 []
      let fp ← r2.2.head?
      let s2 ← updateLargestDeathInF s r2.2 fp
      let newChain ← buildFromH s2 ∅ r2.1
      let s3 ← insertChainP s2 newChain dim fp
      some (s3, r2.2, r2.1)

/-- A sequence of `insert_boundary` calls starting from the empty matrix. -/
def insertAll (bs : List (List ℕ)) : Option CState :=
  bs.foldlM (fun s b => do
    let r ← insertBoundary s b
    pure r.1) CState.empty

/-- `Chain_representative_cycles::update_representative_cycles()`: iterate `i`
over `0 .. get_number_of_columns()-1`, fetch the column owning pivot `i`
(`get_column_with_pivot`); when it is unpaired or `i` is below its paired
partner's index, collect the column's row indices as a cycle (the backing
intrusive list iterates in increasing row order, and the extra `std::sort`
for the heap / unordered-set backends is then the identity) and record its
position in `birthToCycle_` (initialised to −1). -/
def updateRepresentativeCycles (s : CState) : Option (List (List ℕ) × List ℤ) :=
  (List.range s.nextInsertIndex).foldlM
    (fun acc i => do
      let cp ← s.pivMap i
      let col ← s.cols[cp]?
      let qualifies := match col.paired with
        | none => true
        | some j => i < j
      if qualifies then
        pure (acc.1 ++ [col.cells.sort (· ≤ ·)], acc.2.set i (acc.1.length : ℤ))
      else
        pure acc)
    ([], List.replicate s.nextInsertIndex (-1))

end GudhiPM

namespace GudhiPM

/-! ## Invariants of insert-only chain-matrix states -/

/-- The invariant maintained by `insert_boundary` on reachable chain-matrix
states: the matrix holds one column per index below `nextInsertIndex_`; column
`j` has pivot `j`, contains row `j`, and all its rows are `≤ j`;
`pivotToColumnIndex_` is defined exactly on the assigned pivots and maps each
to its column; pairing is irreflexive and mutual; every column has a bar, and
each unpaired column's bar is an essential bar born at its pivot. -/
structure Inv (s : CState) : Prop where
  len : s.cols.length = s.nextInsertIndex
  colGood : ∀ (j : ℕ) (c : ChainCol), s.cols[j]? = some c →
    c.pivot = (j : ℤ) ∧ j ∈ c.cells ∧ ∀ x ∈ c.cells, x ≤ j
  pmap : ∀ p, s.pivMap p = if p < s.nextInsertIndex then some p else none
  pairGood : ∀ (j : ℕ) (c : ChainCol) (j' : ℕ), s.cols[j]? = some c → c.paired = some j' →
    j' ≠ j ∧ ∃ c', s.cols[j']? = some c' ∧ c'.paired = some j
  ibarLt : ∀ p, p < s.nextInsertIndex →
    ∃ b, s.indexToBar p = some b ∧ b < s.barcode.length
  ibarNone : ∀ p, s.nextInsertIndex ≤ p → s.indexToBar p = none
  ubar : ∀ (j : ℕ) (c : ChainCol), s.cols[j]? = some c → c.paired = none →
    ∃ b bar, s.indexToBar j = some b ∧ s.barcode[b]? = some bar ∧
      bar.birth = j ∧ bar.death = -1

/-- Caller contract of a sequence of `insert_boundary` calls: the `i`-th
boundary mentions only the faces inserted before it. -/
def ValidBoundaries (bs : List (List ℕ)) : Prop :=
  ∀ i (h : i < bs.length), ∀ x ∈ bs[i], x < i

end GudhiPM


namespace GudhiPM

-- helper: the toggle is symmetric difference with a singleton
theorem z2Toggle_eq_symmDiff (c : Finset ℕ) (v : ℕ) : z2Toggle c v = symmDiff c {v} := by
  unfold z2Toggle
  by_cases hv : v ∈ c <;>
    · simp only [hv, if_true, if_false, ite_true, ite_false]
      ext x
      simp only [Finset.mem_erase, Finset.mem_insert, Finset.mem_symmDiff, Finset.mem_singleton]
      constructor <;> intro h <;> first
        | (rcases h with h | h) <;> aesop
        | aesop

theorem singleton_symmDiff_of_not_mem {v : ℕ} {t : Finset ℕ} (h : v ∉ t) :
    symmDiff {v} t = insert v t := by
  ext x
  simp only [Finset.mem_symmDiff, Finset.mem_singleton, Finset.mem_insert]
  constructor <;> intro hx
  · rcases hx with ⟨hx, _⟩ | ⟨hx, _⟩ <;> simp [hx]
  · rcases hx with rfl | hx
    · exact Or.inl ⟨rfl, h⟩
    · exact Or.inr ⟨hx, by rintro rfl; exact h hx⟩

theorem foldl_z2Toggle (l : List ℕ) (hl : l.Nodup) (c : Finset ℕ) :
    l.foldl z2Toggle c = symmDiff c l.toFinset := by
  induction l generalizing c with
  | nil =>
    rw [List.foldl_nil, List.toFinset_nil, show (∅ : Finset ℕ) = ⊥ from rfl, symmDiff_bot]
  | cons v l ih =>
    rw [List.foldl_cons, ih (List.nodup_cons.mp hl).2, z2Toggle_eq_symmDiff, symmDiff_assoc]
    rw [List.toFinset_cons, singleton_symmDiff_of_not_mem (by
      simp only [List.mem_toFinset]; exact (List.nodup_cons.mp hl).1)]

theorem Z2_set_column.add_eq_symmDiff (target source : Z2_set_column) :
    target.add source = ⟨target.dim, symmDiff target.cells source.cells⟩ := by
  unfold Z2_set_column.add
  congr 1
  rw [foldl_z2Toggle _ (source.cells.sort_nodup _) _, Finset.sort_toFinset]

/-- C6: adding a Z/2 column into another twice restores the original column
(`(a += b) += b == a`), since Z/2 column addition is the symmetric difference
of the row-index sets. -/
theorem z2_column_add_involutive (a b : Z2_set_column) : (a.add b).add b = a := by
  rw [Z2_set_column.add_eq_symmDiff, Z2_set_column.add_eq_symmDiff]
  cases a with
  | mk d c =>
    simp only [symmDiff_assoc, symmDiff_self, symmDiff_bot]

end GudhiPM

namespace GudhiPM

/-- C4 (code bug): for the nonzero element 1 the code's `get_inverse` returns
the zero element (`element_ ? Z2_field_element() : Z2_field_element(1)` has its
branches exchanged), so `x * x.get_inverse()` is 0, not the multiplicative
identity demanded by the field contract. -/
theorem z2_get_inverse_violates_inverse_contract :
    Z2_field_element.mul (Z2_field_element.ofNat 1) (Z2_field_element.ofNat 1).get_inverse
        = Z2_field_element.get_additive_identity ∧
    Z2_field_element.mul (Z2_field_element.ofNat 1) (Z2_field_element.ofNat 1).get_inverse
        ≠ Z2_field_element.get_multiplicative_identity := by decide

/-- C7: multiplying a chain column by the field value 0 — through `operator*=`
or through the target-scaling `multiply_and_add` overload — throws
`std::invalid_argument` instead of performing the operation. -/
theorem chain_column_scale_by_zero_fails (c other : PMChainColumn) :
    c.mulScalar 0 = Except.error "A chain column should not be multiplied by 0." ∧
    c.multiplyTargetAndAdd 0 other
      = Except.error "A chain column should not be multiplied by 0." := by
  exact ⟨rfl, rfl⟩

/-- C10: `Id_to_index_overlay::remove_last()` on an overlay whose
id-to-index dictionary is empty returns immediately: no failure, no change to
the overlay or to the underlying matrix. -/
theorem overlay_remove_last_empty_noop {M : Type} (matrixRemoveLast : M → Option M)
    (isBoundaryType : Bool) (o : Overlay M) (h : o.idToIndex = []) :
    Overlay.removeLast matrixRemoveLast isBoundaryType o = some o := by
  unfold Overlay.removeLast
  rw [h]
  rfl

theorem overlay_remove_last_empty_noop_witness :
    (Overlay.mk ([] : List (ℕ × ℕ)) 0 (0 : ℕ)).idToIndex = [] ∧
    Overlay.removeLast (fun _ : ℕ => none) true (Overlay.mk [] 0 0)
      = some (Overlay.mk [] 0 0) :=
  ⟨rfl, overlay_remove_last_empty_noop (fun _ : ℕ => none) true (Overlay.mk [] 0 0) rfl⟩

end GudhiPM

namespace GudhiPM

theorem initField_2_7 :
    initField 2 7 = Except.ok ⟨[2, 3, 5, 7], 210, [105, 70, 126, 120]⟩ := by rfl

-- modular-inverse correctness of `mpz_invert` on coprime input
theorem mul_modInv_eq_one {x n : ℕ} (h2 : 1 < n) (hco : Nat.Coprime x n) :
    (x * modInv x n) % n = 1 := by
  haveI : NeZero n := ⟨by omega⟩
  haveI : Fact (1 < n) := ⟨h2⟩
  have h1 : (x : ZMod n) * (x : ZMod n)⁻¹ = 1 := by
    rw [ZMod.mul_inv_eq_gcd, ZMod.val_natCast, ← Nat.gcd_rec]
    rw [Nat.coprime_comm.mp hco]
    exact Nat.cast_one
  have hv : modInv x n % n = modInv x n := Nat.mod_eq_of_lt (ZMod.val_lt _)
  unfold modInv
  unfold modInv at hv
  rw [Nat.mul_mod, hv, ← ZMod.val_natCast (n := n) x, ← ZMod.val_mul, h1, ZMod.val_one]

end GudhiPM

namespace GudhiPM

/-- C3: after `initialize(2,7)` (primes {2,3,5,7}, product of characteristics
210), every element whose value is nonzero and coprime to 210 satisfies
`x * x.get_inverse() ≡ 1 (mod 210)`. -/
theorem multi_field_crt_inverse (mf : MFState) (hmf : initField 2 7 = Except.ok mf)
    (x : ℕ) (hnz : x % 210 ≠ 0) (hco : Nat.Coprime x 210) :
    (x * getInverseMF mf x) % 210 = 1 := by
  have hmf0 : mf = ⟨[2, 3, 5, 7], 210, [105, 70, 126, 120]⟩ :=
    (Except.ok.inj (initField_2_7.symm.trans hmf)).symm
  subst hmf0
  have hg : Nat.gcd x 210 = 1 := hco
  unfold getInverseMF getPartialInverse
  simp only [hg]
  rw [if_neg (by norm_num)]
  have hPI : getPartialMultiplicativeIdentity ⟨[2, 3, 5, 7], 210, [105, 70, 126, 120]⟩ (210 / 1)
      = 1 := by rfl
  simp only [hPI, one_mul]
  have hlt : modInv x (210 / 1) % 210 = modInv x 210 := by
    rw [Nat.div_one]
    exact Nat.mod_eq_of_lt (ZMod.val_lt _)
  rw [hlt, Nat.div_one] at *
  exact mul_modInv_eq_one (by norm_num) hco

theorem multi_field_crt_inverse_witness :
    initField 2 7 = Except.ok ⟨[2, 3, 5, 7], 210, [105, 70, 126, 120]⟩ ∧
    11 % 210 ≠ 0 ∧ Nat.Coprime 11 210 ∧
    (11 * getInverseMF ⟨[2, 3, 5, 7], 210, [105, 70, 126, 120]⟩ 11) % 210 = 1 :=
  ⟨initField_2_7, by decide, by decide,
    multi_field_crt_inverse _ initField_2_7 11 (by decide) (by decide)⟩

end GudhiPM

namespace GudhiPM

/-- C8 counterexample: after `initialize(2,7)` the element 6 with sub-product
6 satisfies the non-invertibility test `gcd(6,6) = 6`, yet `get_partial_inverse`
returns the weight 1 (`multiplicativeID_`), not the full product 210 the claim
announces. -/
theorem partial_inverse_weight_counterexample :
    initField 2 7 = Except.ok ⟨[2, 3, 5, 7], 210, [105, 70, 126, 120]⟩ ∧
    Nat.gcd 6 6 = 6 ∧
    getPartialInverse ⟨[2, 3, 5, 7], 210, [105, 70, 126, 120]⟩ 6 6 = (0, 1) ∧
    (getPartialInverse ⟨[2, 3, 5, 7], 210, [105, 70, 126, 120]⟩ 6 6).2 ≠ 210 := by
  refine ⟨initField_2_7, rfl, rfl, by decide⟩

theorem prime_sq_not_dvd_210 {p : ℕ} (hp : p.Prime) : ¬ (p * p ∣ 210) := by
  intro hpp
  have hple : p ≤ 14 := by nlinarith [Nat.le_of_dvd (show 0 < 210 by norm_num) hpp]
  have h2 := hp.two_le
  interval_cases p <;> revert hpp <;> decide

theorem coprime_div_gcd_of_dvd_210 {x q : ℕ} (hq : q ∣ 210) :
    Nat.Coprime x (q / Nat.gcd x q) := by
  by_contra hnc
  obtain ⟨p, hp, hpd⟩ := Nat.exists_prime_and_dvd hnc
  have hgq : Nat.gcd x q ∣ q := Nat.gcd_dvd_right x q
  have hpx : p ∣ x := hpd.trans (Nat.gcd_dvd_left _ _)
  have hpqt : p ∣ q / Nat.gcd x q := hpd.trans (Nat.gcd_dvd_right _ _)
  have hpq : p ∣ q := hpqt.trans (Nat.div_dvd_of_dvd hgq)
  have hpg : p ∣ Nat.gcd x q := Nat.dvd_gcd hpx hpq
  have hpp : p * p ∣ 210 :=
    ((mul_dvd_mul hpqt hpg).trans (by rw [Nat.div_mul_cancel hgq]; exact hq))
  exact prime_sq_not_dvd_210 hp hpp

/-- C8 amended: when `gcd(x,Q) = Q` (the element is not invertible modulo any
subfactor of `Q`), `get_partial_inverse(Q)` returns the zero element with
weight `multiplicativeID_ = 1`; otherwise it returns the CRT-reconstructed
inverse together with the sub-product `QT = Q / gcd(x,Q)`: the weight is `QT`
and `x` times the returned value is congruent to 1 modulo `QT`. -/
theorem partial_inverse_shape (mf : MFState) (hmf : initField 2 7 = Except.ok mf)
    (x q : ℕ) (hq : q ∣ 210) :
    (Nat.gcd x q = q → getPartialInverse mf x q = (0, 1)) ∧
    (Nat.gcd x q ≠ q →
      (getPartialInverse mf x q).2 = q / Nat.gcd x q ∧
      (x * (getPartialInverse mf x q).1) % (q / Nat.gcd x q) = 1) := by
  have hmf0 : mf = ⟨[2, 3, 5, 7], 210, [105, 70, 126, 120]⟩ :=
    (Except.ok.inj (initField_2_7.symm.trans hmf)).symm
  subst hmf0
  constructor
  · intro hgq
    simp [getPartialInverse, hgq]
  · intro hne
    have hq0 : 0 < q := Nat.pos_of_dvd_of_pos hq (by norm_num)
    have hgq : Nat.gcd x q ∣ q := Nat.gcd_dvd_right x q
    have hg0 : 0 < Nat.gcd x q := by
      rcases Nat.eq_zero_or_pos (Nat.gcd x q) with h0 | h
      · exact absurd (Nat.eq_zero_of_gcd_eq_zero_right h0) (by omega)
      · exact h
    have hqt0 : 0 < q / Nat.gcd x q := Nat.div_pos (Nat.le_of_dvd hq0 hgq) hg0
    have hqt1 : q / Nat.gcd x q ≠ 1 := by
      intro h1
      exact hne ((Nat.eq_mul_of_div_eq_right hgq h1).trans (mul_one _)).symm
    have hqt2 : 1 < q / Nat.gcd x q := by omega
    have hqt210 : q / Nat.gcd x q ∣ 210 := (Nat.div_dvd_of_dvd hgq).trans hq
    have hco : Nat.Coprime x (q / Nat.gcd x q) := coprime_div_gcd_of_dvd_210 hq
    unfold getPartialInverse
    simp only [if_neg hne]
    refine ⟨by trivial, ?_⟩
    have hPI : getPartialMultiplicativeIdentity ⟨[2, 3, 5, 7], 210, [105, 70, 126, 120]⟩
          (q / Nat.gcd x q) % (q / Nat.gcd x q) = 1 % (q / Nat.gcd x q) := by
      have hall : ∀ t ∈ Nat.divisors 210,
          getPartialMultiplicativeIdentity ⟨[2, 3, 5, 7], 210, [105, 70, 126, 120]⟩ t % t
            = 1 % t := by decide
      exact hall _ (Nat.mem_divisors.mpr ⟨hqt210, by norm_num⟩)
    calc (x * (getPartialMultiplicativeIdentity ⟨[2, 3, 5, 7], 210, [105, 70, 126, 120]⟩
              (q / Nat.gcd x q) * modInv x (q / Nat.gcd x q) % 210)) % (q / Nat.gcd x q)
        = (x * (getPartialMultiplicativeIdentity ⟨[2, 3, 5, 7], 210, [105, 70, 126, 120]⟩
              (q / Nat.gcd x q) * modInv x (q / Nat.gcd x q))) % (q / Nat.gcd x q) := by
          rw [Nat.mul_mod, Nat.mod_mod_of_dvd _ hqt210, ← Nat.mul_mod]
      _ = ((x * modInv x (q / Nat.gcd x q))
              * getPartialMultiplicativeIdentity ⟨[2, 3, 5, 7], 210, [105, 70, 126, 120]⟩
                  (q / Nat.gcd x q)) % (q / Nat.gcd x q) := by
          ring_nf
      _ = ((x * modInv x (q / Nat.gcd x q)) % (q / Nat.gcd x q) * (1 % (q / Nat.gcd x q)))
            % (q / Nat.gcd x q) := by
          rw [Nat.mul_mod, hPI]
      _ = (x * modInv x (q / Nat.gcd x q)) % (q / Nat.gcd x q) := by
          rw [← Nat.mul_mod, mul_one]
      _ = 1 := mul_modInv_eq_one hqt2 hco

theorem partial_inverse_shape_witness :
    initField 2 7 = Except.ok ⟨[2, 3, 5, 7], 210, [105, 70, 126, 120]⟩ ∧
    (6 : ℕ) ∣ 210 ∧ Nat.gcd 4 6 ≠ 6 ∧
    (getPartialInverse ⟨[2, 3, 5, 7], 210, [105, 70, 126, 120]⟩ 4 6).2 = 6 / Nat.gcd 4 6 ∧
    (4 * (getPartialInverse ⟨[2, 3, 5, 7], 210, [105, 70, 126, 120]⟩ 4 6).1) % (6 / Nat.gcd 4 6)
      = 1 :=
  ⟨initField_2_7, by decide, by decide,
    (partial_inverse_shape _ initField_2_7 4 6 (by decide)).2 (by decide)⟩

end GudhiPM

namespace GudhiPM

/-- C5 counterexample: inserting the boundaries `{}, {}, {0,1}` over Z/2
produces the barcode [(0, 0, ∞), (0, 1, 2)]; the finite bar claimed by the
spec, (dimension 0, birth 0, death 2), does not occur — the edge kills the
class born at position 1 (elder rule), not the one born at position 0. -/
theorem two_point_barcode_counterexample :
    (insertAll [[], [], [0, 1]]).map CState.barcode
        = some [Bar.mk 0 0 (-1), Bar.mk 0 1 2] ∧
    Bar.mk 0 0 2 ∉ [Bar.mk 0 0 (-1), Bar.mk 0 1 2] := by
  exact ⟨rfl, by decide⟩

/-- C5 amended: inserting the boundaries `{}, {}, {0,1}` over Z/2 produces a
barcode consisting of exactly one essential bar (dimension 0, birth 0, no
death) and one finite bar (dimension 0, birth 1, death 2). -/
theorem two_point_barcode :
    (insertAll [[], [], [0, 1]]).map CState.barcode
      = some [Bar.mk 0 0 (-1), Bar.mk 0 1 2] := by
  exact rfl

end GudhiPM

namespace GudhiPM

theorem set_getElem?_self {α : Type} {l : List α} {n : ℕ} {a : α} (h : l[n]? = some a) :
    l.set n a = l := by
  apply List.ext_getElem?
  intro m
  rcases eq_or_ne n m with rfl | hne
  · rw [List.getElem?_set_self (List.getElem?_eq_some.mp h).1]
    exact h.symm
  · rw [List.getElem?_set_ne hne]

theorem inv_empty : Inv CState.empty where
  len := rfl
  colGood := by intro j c h; simp [CState.empty] at h
  pmap := by intro p; simp [CState.empty]
  pairGood := by intro j c j' h _; simp [CState.empty] at h
  ibarLt := by intro p hp; exact absurd hp (Nat.not_lt_zero p)
  ibarNone := by intro p _; rfl
  ubar := by intro j c h _; simp [CState.empty] at h

theorem Inv.getCol {s : CState} (hs : Inv s) {j : ℕ} (hj : j < s.nextInsertIndex) :
    ∃ c, s.cols[j]? = some c := by
  have hlt : j < s.cols.length := by rw [hs.len]; exact hj
  exact ⟨_, List.getElem?_eq_getElem hlt⟩

theorem Inv.transfer {s s' : CState} (hs : Inv s)
    (hnext : s'.nextInsertIndex = s.nextInsertIndex)
    (hclen : s'.cols.length = s.cols.length)
    (hpm : ∀ p, s'.pivMap p = s.pivMap p)
    (hbar : s'.barcode = s.barcode)
    (hibar : ∀ p, s'.indexToBar p = s.indexToBar p)
    (hgood : ∀ (j : ℕ) (c : ChainCol), s'.cols[j]? = some c →
      c.pivot = (j : ℤ) ∧ j ∈ c.cells ∧ ∀ x ∈ c.cells, x ≤ j)
    (hpaired : ∀ j : ℕ,
      (s'.cols[j]?).map ChainCol.paired = (s.cols[j]?).map ChainCol.paired) :
    Inv s' where
  len := hclen.trans (hs.len.trans hnext.symm)
  colGood := hgood
  pmap := by intro p; rw [hpm, hs.pmap, hnext]
  pairGood := by
    intro j c j' hj hcp
    have h1 := hpaired j
    rw [hj] at h1
    match hsj : s.cols[j]? with
    | none => rw [hsj] at h1; exact absurd h1 (by simp)
    | some c0 =>
      rw [hsj] at h1
      simp only [Option.map_some'] at h1
      have hc0 : c0.paired = some j' := by rw [← Option.some.inj h1, hcp]
      obtain ⟨hne, c1, hj1, hc1⟩ := hs.pairGood j c0 j' hsj hc0
      refine ⟨hne, ?_⟩
      have h2 := hpaired j'
      rw [hj1] at h2
      match hsj' : s'.cols[j']? with
      | none => rw [hsj'] at h2; exact absurd h2 (by simp)
      | some c2 =>
        rw [hsj'] at h2
        simp only [Option.map_some'] at h2
        exact ⟨c2, rfl, by rw [Option.some.inj h2, hc1]⟩
  ibarLt := by
    intro p hp
    rw [hibar, hbar]
    exact hs.ibarLt p (hnext ▸ hp)
  ibarNone := by
    intro p hp
    rw [hibar]
    exact hs.ibarNone p (hnext ▸ hp)
  ubar := by
    intro j c hj hcp
    have h1 := hpaired j
    rw [hj] at h1
    match hsj : s.cols[j]? with
    | none => rw [hsj] at h1; exact absurd h1 (by simp)
    | some c0 =>
      rw [hsj] at h1
      simp only [Option.map_some'] at h1
      have hc0 : c0.paired = none := by rw [← Option.some.inj h1, hcp]
      obtain ⟨b, bar, hb, hbarb, hbirth, hdeath⟩ := hs.ubar j c0 hsj hc0
      exact ⟨b, bar, by rw [hibar]; exact hb, by rw [hbar]; exact hbarb, hbirth, hdeath⟩

end GudhiPM

namespace GudhiPM

/-- `add_to(src, tgt)` with `src < tgt` on an invariant state: the swap branch
of the chain `operator+=` is not taken (the source's rows are all `≤ src`, so
the target's pivot survives the XOR); only the target's cells change. -/
theorem addTo_spec {s : CState} (hs : Inv s) {srcIdx tgtIdx : ℕ}
    (hsrc : srcIdx < s.nextInsertIndex) (htgt : tgtIdx < s.nextInsertIndex)
    (hlt : srcIdx < tgtIdx) :
    ∃ ct cs, s.cols[tgtIdx]? = some ct ∧ s.cols[srcIdx]? = some cs ∧
      s.addTo srcIdx tgtIdx = some
        { s with cols := s.cols.set tgtIdx { ct with cells := symmDiff ct.cells cs.cells } } ∧
      Inv { s with cols := s.cols.set tgtIdx { ct with cells := symmDiff ct.cells cs.cells } } := by
  obtain ⟨ct, hct⟩ := hs.getCol htgt
  obtain ⟨cs, hcs⟩ := hs.getCol hsrc
  obtain ⟨hpivt, hmemt, hlet⟩ := hs.colGood tgtIdx ct hct
  obtain ⟨hpivs, hmems, hles⟩ := hs.colGood srcIdx cs hcs
  have hne : srcIdx ≠ tgtIdx := Nat.ne_of_lt hlt
  have hsurv : tgtIdx ∈ symmDiff ct.cells cs.cells := by
    rw [Finset.mem_symmDiff]
    exact Or.inl ⟨hmemt, fun hmem => absurd (hles tgtIdx hmem) (by omega)⟩
  have hnz : ChainCol.isNonZero ⟨symmDiff ct.cells cs.cells, ct.pivot, ct.paired, ct.dim⟩
      ct.pivot = true := by
    unfold ChainCol.isNonZero
    rw [hpivt]
    simp [hsurv]
  have hcomp : s.addTo srcIdx tgtIdx = some
      { s with cols := s.cols.set tgtIdx { ct with cells := symmDiff ct.cells cs.cells } } := by
    unfold CState.addTo chainAdd
    rw [hct, hcs]
    simp only [Option.pure_def, Option.bind_eq_bind, Option.some_bind, hnz, if_true]
    rw [set_getElem?_self (show
      (s.cols.set tgtIdx ⟨symmDiff ct.cells cs.cells, ct.pivot, ct.paired, ct.dim⟩)[srcIdx]?
        = some cs by rw [List.getElem?_set_ne (Ne.symm hne)]; exact hcs)]
  refine ⟨ct, cs, hct, hcs, hcomp, ?_⟩
  refine hs.transfer rfl (List.length_set ..) (fun _ => rfl) rfl (fun _ => rfl) ?_ ?_
  · intro j c hj
    rcases eq_or_ne tgtIdx j with rfl | hjne
    · rw [List.getElem?_set_self (List.getElem?_eq_some.mp hct).1] at hj
      have hc : c = { ct with cells := symmDiff ct.cells cs.cells } := (Option.some.inj hj).symm
      subst hc
      refine ⟨hpivt, hsurv, ?_⟩
      intro x hx
      rw [Finset.mem_symmDiff] at hx
      rcases hx with ⟨hx, _⟩ | ⟨hx, _⟩
      · exact hlet x hx
      · exact le_trans (hles x hx) (by omega)
    · rw [List.getElem?_set_ne hjne] at hj
      exact hs.colGood j c hj
  · intro j
    rcases eq_or_ne tgtIdx j with rfl | hjne
    · rw [List.getElem?_set_self (List.getElem?_eq_some.mp hct).1, hct]
      rfl
    · rw [List.getElem?_set_ne hjne]

end GudhiPM

namespace GudhiPM

/-- The fold of `_update_largest_death_in_F`: adding each F column (all of
index below `fp`) into `fp` succeeds, preserves the invariant, and changes
only column `fp`'s cells; pivot and pairing of `fp`, the dictionary, the
barcode state and the counters are untouched. -/
theorem updateF_fold {fp : ℕ} (l : List ℕ) : ∀ (s : CState), Inv s → fp < s.nextInsertIndex →
    (∀ j ∈ l, j < fp) →
    ∃ s', l.foldlM (fun st j => st.addTo j fp) s = some s' ∧ Inv s' ∧
      s'.nextInsertIndex = s.nextInsertIndex ∧
      s'.pivMap = s.pivMap ∧ s'.barcode = s.barcode ∧ s'.indexToBar = s.indexToBar ∧
      s'.dimensions = s.dimensions ∧ s'.maxDim = s.maxDim ∧
      (∀ j, j ≠ fp → s'.cols[j]? = s.cols[j]?) ∧
      (s'.cols[fp]?).map ChainCol.paired = (s.cols[fp]?).map ChainCol.paired ∧
      (s'.cols[fp]?).map ChainCol.pivot = (s.cols[fp]?).map ChainCol.pivot := by
  induction l with
  | nil =>
    intro s hs hfp _
    exact ⟨s, rfl, hs, rfl, rfl, rfl, rfl, rfl, rfl, fun _ _ => rfl, rfl, rfl⟩
  | cons j l ih =>
    intro s hs hfp hl
    have hj : j < fp := hl j (List.mem_cons_self j l)
    obtain ⟨ct, cs, hct, hcs, hcomp, hinv⟩ := addTo_spec hs (Nat.lt_trans hj hfp) hfp hj
    have hfplen : fp < s.cols.length := by rw [hs.len]; exact hfp
    obtain ⟨s', hfold, hinv', hnext, hpm, hbar, hibar, hdims, hmax, hother, hpair, hpiv⟩ :=
      ih _ hinv hfp (fun x hx => hl x (List.mem_cons_of_mem j hx))
    refine ⟨s', ?_, hinv', hnext, hpm, hbar, hibar, hdims, hmax, ?_, ?_, ?_⟩
    · rw [List.foldlM_cons, hcomp]
      exact hfold
    · intro j' hj'
      rw [hother j' hj', List.getElem?_set_ne (by omega)]
    · rw [hpair, List.getElem?_set_self hfplen, hct]
      rfl
    · rw [hpiv, List.getElem?_set_self hfplen, hct]
      rfl

end GudhiPM

namespace GudhiPM

/-- The paired-reduction loop of `_reduce_boundary` on an invariant state:
with enough fuel it terminates; the working set stays below
`nextInsertIndex_`, every recorded H index is a valid paired column, and on
exit the working set is either empty or owned (through its greatest row) by an
unpaired column. -/
theorem reduceLoop1_spec {s : CState} (hs : Inv s) :
    ∀ (fuel : ℕ) (tmp : Finset ℕ) (hsl : List ℕ),
    (∀ x ∈ tmp, x < s.nextInsertIndex) → (∀ x ∈ tmp, x + 2 ≤ fuel) → tmp.Nonempty →
    (∀ h ∈ hsl, h < s.nextInsertIndex ∧ ∃ c, s.cols[h]? = some c ∧ c.paired.isSome) →
    ∃ tmp' hsl', reduceLoop1 s fuel tmp hsl = some (tmp', hsl') ∧
      (∀ x ∈ tmp', x < s.nextInsertIndex) ∧
      (∀ h ∈ hsl', h < s.nextInsertIndex ∧ ∃ c, s.cols[h]? = some c ∧ c.paired.isSome) ∧
      (tmp' = ∅ ∨ ∃ m col, setMax tmp' = some m ∧ s.pivMap m = some m ∧
        s.cols[m]? = some col ∧ col.paired = none) := by
  intro fuel
  induction fuel with
  | zero =>
    intro tmp hsl _ hf hne _
    obtain ⟨x, hx⟩ := hne
    exact absurd (hf x hx) (by omega)
  | succ fuel ih =>
    intro tmp hsl hk hf hne hhs
    have hmax_eq : setMax tmp = some (tmp.max' hne) := by
      unfold setMax
      rw [dif_pos hne]
    have hmtmp : tmp.max' hne ∈ tmp := tmp.max'_mem hne
    have hmk : tmp.max' hne < s.nextInsertIndex := hk _ hmtmp
    have hpm' : s.pivMap (tmp.max' hne) = some (tmp.max' hne) := by
      rw [hs.pmap, if_pos hmk]
    obtain ⟨col, hcol⟩ := hs.getCol hmk
    obtain ⟨hpiv, hmem, hle⟩ := hs.colGood _ col hcol
    cases hpaired : col.paired with
    | none =>
      refine ⟨tmp, hsl, ?_, hk, hhs, Or.inr ⟨tmp.max' hne, col, hmax_eq, hpm', hcol, hpaired⟩⟩
      unfold reduceLoop1
      rw [hmax_eq]
      simp only [Option.pure_def, Option.bind_eq_bind, Option.some_bind, hpm', hcol, hpaired]
    | some h =>
      have hnotin : tmp.max' hne ∉ symmDiff tmp col.cells := by
        rw [Finset.mem_symmDiff]
        rintro (⟨_, habs⟩ | ⟨_, habs⟩)
        · exact habs hmem
        · exact habs hmtmp
      have hlt' : ∀ x ∈ symmDiff tmp col.cells, x < tmp.max' hne := by
        intro x hx
        have hxle : x ≤ tmp.max' hne := by
          rw [Finset.mem_symmDiff] at hx
          rcases hx with ⟨hx, _⟩ | ⟨hx, _⟩
          · exact tmp.le_max' x hx
          · exact hle x hx
        rcases Nat.lt_or_ge x (tmp.max' hne) with hlt | hge
        · exact hlt
        · exact absurd hx (by rw [show x = tmp.max' hne by omega]; exact hnotin)
      have hHelem : h < s.nextInsertIndex ∧ ∃ c, s.cols[h]? = some c ∧ c.paired.isSome := by
        obtain ⟨hne', c', hc', hc'p⟩ := hs.pairGood _ col h hcol hpaired
        refine ⟨?_, c', hc', by rw [hc'p]; rfl⟩
        have := (List.getElem?_eq_some.mp hc').1
        rw [hs.len] at this
        exact this
      have hhs' : ∀ h' ∈ hsl ++ [h],
          h' < s.nextInsertIndex ∧ ∃ c, s.cols[h']? = some c ∧ c.paired.isSome := by
        intro h' hh'
        rcases List.mem_append.mp hh' with hh' | hh'
        · exact hhs h' hh'
        · rw [List.mem_singleton.mp hh']
          exact hHelem
      by_cases hempty : symmDiff tmp col.cells = ∅
      · refine ⟨∅, hsl ++ [h], ?_, by simp, hhs', Or.inl rfl⟩
        unfold reduceLoop1
        rw [hmax_eq]
        simp only [Option.pure_def, Option.bind_eq_bind, Option.some_bind, hpm', hcol, hpaired]
        rw [if_pos hempty, hempty]
      · have hne2 : (symmDiff tmp col.cells).Nonempty := Finset.nonempty_iff_ne_empty.mpr hempty
        obtain ⟨tmp', hsl', heq, hk', hhs'', hdisj⟩ :=
          ih (symmDiff tmp col.cells) (hsl ++ [h])
            (fun x hx => Nat.lt_trans (hlt' x hx) hmk)
            (fun x hx => by have h1 := hlt' x hx; have h2 := hf _ hmtmp; omega)
            hne2 hhs'
        refine ⟨tmp', hsl', ?_, hk', hhs'', ?_⟩
        · unfold reduceLoop1
          rw [hmax_eq]
          simp only [Option.pure_def, Option.bind_eq_bind, Option.some_bind, hpm', hcol, hpaired]
          rw [if_neg hempty]
          exact heq
        · exact hdisj

end GudhiPM

namespace GudhiPM

/-- The main reduction loop of `_reduce_boundary` on an invariant state: with
enough fuel it empties the working set; every recorded H index is a valid
paired column; the recorded F indices (`currentEssentialCycleIndices`) are
unpaired columns, appear in strictly decreasing order, and are each bounded by
some row of the initial working set. -/
theorem reduceLoop2_spec {s : CState} (hs : Inv s) :
    ∀ (fuel : ℕ) (tmp : Finset ℕ) (hsl es : List ℕ),
    1 ≤ fuel →
    (∀ x ∈ tmp, x < s.nextInsertIndex) → (∀ x ∈ tmp, x + 2 ≤ fuel) →
    (∀ h ∈ hsl, h < s.nextInsertIndex ∧ ∃ c, s.cols[h]? = some c ∧ c.paired.isSome) →
    ∃ hsl' delta, reduceLoop2 s fuel tmp hsl es = some (hsl', es ++ delta) ∧
      (∀ h ∈ hsl', h < s.nextInsertIndex ∧ ∃ c, s.cols[h]? = some c ∧ c.paired.isSome) ∧
      (∀ e ∈ delta, e < s.nextInsertIndex ∧ ∃ c, s.cols[e]? = some c ∧ c.paired = none) ∧
      (∀ e ∈ delta, ∃ x ∈ tmp, e ≤ x) ∧
      List.Pairwise (· > ·) delta := by
  intro fuel
  induction fuel with
  | zero => intro tmp hsl es h1 _ _ _; omega
  | succ fuel ih =>
    intro tmp hsl es _ hk hf hhs
    by_cases hempty : tmp = ∅
    · refine ⟨hsl, [], ?_, hhs, by simp, by simp, List.Pairwise.nil⟩
      unfold reduceLoop2
      rw [if_pos hempty, List.append_nil]
    · have hne : tmp.Nonempty := Finset.nonempty_iff_ne_empty.mpr hempty
      have hmax_eq : setMax tmp = some (tmp.max' hne) := by
        unfold setMax
        rw [dif_pos hne]
      have hmtmp : tmp.max' hne ∈ tmp := tmp.max'_mem hne
      have hmk : tmp.max' hne < s.nextInsertIndex := hk _ hmtmp
      have hpm' : s.pivMap (tmp.max' hne) = some (tmp.max' hne) := by
        rw [hs.pmap, if_pos hmk]
      obtain ⟨col, hcol⟩ := hs.getCol hmk
      obtain ⟨hpiv, hmem, hle⟩ := hs.colGood _ col hcol
      have hnotin : tmp.max' hne ∉ symmDiff tmp col.cells := by
        rw [Finset.mem_symmDiff]
        rintro (⟨_, habs⟩ | ⟨_, habs⟩)
        · exact habs hmem
        · exact habs hmtmp
      have hlt' : ∀ x ∈ symmDiff tmp col.cells, x < tmp.max' hne := by
        intro x hx
        have hxle : x ≤ tmp.max' hne := by
          rw [Finset.mem_symmDiff] at hx
          rcases hx with ⟨hx, _⟩ | ⟨hx, _⟩
          · exact tmp.le_max' x hx
          · exact hle x hx
        rcases Nat.lt_or_ge x (tmp.max' hne) with hlt | hge
        · exact hlt
        · exact absurd hx (by rw [show x = tmp.max' hne by omega]; exact hnotin)
      have hk2 : ∀ x ∈ symmDiff tmp col.cells, x < s.nextInsertIndex :=
        fun x hx => Nat.lt_trans (hlt' x hx) hmk
      have hf2 : ∀ x ∈ symmDiff tmp col.cells, x + 2 ≤ fuel := by
        intro x hx
        have h1 := hlt' x hx
        have h2 := hf _ hmtmp
        omega
      have hfuel1 : 1 ≤ fuel := by
        have h2 := hf _ hmtmp
        omega
      have hliftB : ∀ e, (∃ x ∈ symmDiff tmp col.cells, e ≤ x) → ∃ x ∈ tmp, e ≤ x := by
        rintro e ⟨x, hx, hex⟩
        rw [Finset.mem_symmDiff] at hx
        rcases hx with ⟨hx, _⟩ | ⟨hx, _⟩
        · exact ⟨x, hx, hex⟩
        · exact ⟨tmp.max' hne, hmtmp, le_trans hex (hle x hx)⟩
      cases hpaired : col.paired with
      | none =>
        obtain ⟨hsl', delta', heq, hh', he', hb', hpw'⟩ :=
          ih (symmDiff tmp col.cells) hsl (es ++ [tmp.max' hne]) hfuel1 hk2 hf2 hhs
        refine ⟨hsl', tmp.max' hne :: delta', ?_, hh', ?_, ?_, ?_⟩
        · unfold reduceLoop2
          rw [if_neg hempty, hmax_eq]
          simp only [Option.pure_def, Option.bind_eq_bind, Option.some_bind, hpm', hcol, hpaired]
          rw [heq, List.append_assoc]
          rfl
        · intro e he
          rcases List.mem_cons.mp he with rfl | he
          · exact ⟨hmk, col, hcol, hpaired⟩
          · exact he' e he
        · intro e he
          rcases List.mem_cons.mp he with rfl | he
          · exact ⟨tmp.max' hne, hmtmp, le_rfl⟩
          · exact hliftB e (hb' e he)
        · rw [List.pairwise_cons]
          refine ⟨?_, hpw'⟩
          intro e he
          obtain ⟨x, hx, hex⟩ := hb' e he
          exact lt_of_le_of_lt hex (hlt' x hx)
      | some h =>
        have hHelem : h < s.nextInsertIndex ∧ ∃ c, s.cols[h]? = some c ∧ c.paired.isSome := by
          obtain ⟨hne', c', hc', hc'p⟩ := hs.pairGood _ col h hcol hpaired
          refine ⟨?_, c', hc', by rw [hc'p]; rfl⟩
          have := (List.getElem?_eq_some.mp hc').1
          rw [hs.len] at this
          exact this
        have hhs2 : ∀ h' ∈ hsl ++ [h],
            h' < s.nextInsertIndex ∧ ∃ c, s.cols[h']? = some c ∧ c.paired.isSome := by
          intro h' hh'
          rcases List.mem_append.mp hh' with hh' | hh'
          · exact hhs h' hh'
          · rw [List.mem_singleton.mp hh']
            exact hHelem
        obtain ⟨hsl', delta', heq, hh', he', hb', hpw'⟩ :=
          ih (symmDiff tmp col.cells) (hsl ++ [h]) es hfuel1 hk2 hf2 hhs2
        refine ⟨hsl', delta', ?_, hh', he', fun e he => hliftB e (hb' e he), hpw'⟩
        unfold reduceLoop2
        rw [if_neg hempty, hmax_eq]
        simp only [Option.pure_def, Option.bind_eq_bind, Option.some_bind, hpm', hcol, hpaired]
        exact heq

end GudhiPM

namespace GudhiPM

/-- The fold inside `_build_from_H`, on any accumulator containing
`nextInsertIndex_` and bounded by it: it succeeds and preserves both facts
(no column of the matrix contains row `nextInsertIndex_`). -/
theorem buildFromH_fold {s : CState} (hs : Inv s) (hsl : List ℕ)
    (hh : ∀ h ∈ hsl, h < s.nextInsertIndex) :
    ∀ acc : Finset ℕ, s.nextInsertIndex ∈ acc → (∀ x ∈ acc, x ≤ s.nextInsertIndex) →
    ∃ res, hsl.foldlM (fun acc h => do
        let col ← s.cols[h]?
        pure (symmDiff acc col.cells)) acc = some res ∧
      s.nextInsertIndex ∈ res ∧ ∀ x ∈ res, x ≤ s.nextInsertIndex := by
  induction hsl with
  | nil => intro acc hmem hb; exact ⟨acc, rfl, hmem, hb⟩
  | cons h t ih =>
    intro acc hmem hb
    have hhk : h < s.nextInsertIndex := hh h (List.mem_cons_self h t)
    obtain ⟨col, hcol⟩ := hs.getCol hhk
    obtain ⟨_, _, hle⟩ := hs.colGood _ col hcol
    have hmem' : s.nextInsertIndex ∈ symmDiff acc col.cells := by
      rw [Finset.mem_symmDiff]
      exact Or.inl ⟨hmem, fun hc => absurd (hle _ hc) (by omega)⟩
    have hb' : ∀ x ∈ symmDiff acc col.cells, x ≤ s.nextInsertIndex := by
      intro x hx
      rw [Finset.mem_symmDiff] at hx
      rcases hx with ⟨hx, _⟩ | ⟨hx, _⟩
      · exact hb x hx
      · exact le_trans (hle x hx) (le_of_lt hhk)
    obtain ⟨res, heq, hres1, hres2⟩ :=
      ih (fun x hx => hh x (List.mem_cons_of_mem h hx)) (symmDiff acc col.cells) hmem' hb'
    refine ⟨res, ?_, hres1, hres2⟩
    rw [List.foldlM_cons, hcol]
    simp only [Option.pure_def, Option.bind_eq_bind, Option.some_bind]
    exact heq

/-- `_build_from_H` on an emptied working set succeeds, and the built chain
contains `nextInsertIndex_` as its greatest row. -/
theorem buildFromH_spec {s : CState} (hs : Inv s) (hsl : List ℕ)
    (hh : ∀ h ∈ hsl, h < s.nextInsertIndex) :
    ∃ res, buildFromH s ∅ hsl = some res ∧ s.nextInsertIndex ∈ res ∧
      (∀ x ∈ res, x ≤ s.nextInsertIndex) ∧ setMax res = some s.nextInsertIndex := by
  obtain ⟨res, heq, h1, h2⟩ := buildFromH_fold hs hsl hh (insert s.nextInsertIndex ∅)
    (Finset.mem_insert_self _ _)
    (by intro x hx; rcases Finset.mem_insert.mp hx with rfl | hx
        · exact le_rfl
        · exact absurd hx (Finset.not_mem_empty x))
  refine ⟨res, heq, h1, h2, ?_⟩
  have hne : res.Nonempty := ⟨_, h1⟩
  unfold setMax
  rw [dif_pos hne]
  congr 1
  exact le_antisymm (res.max'_le hne _ h2) (res.le_max' _ h1)

/-- The fold inside `_build_from_H` reads only the listed columns; two states
agreeing there fold identically. -/
theorem buildFromH_fold_congr {s s' : CState} (hsl : List ℕ)
    (hcols : ∀ h ∈ hsl, s'.cols[h]? = s.cols[h]?) :
    ∀ acc : Finset ℕ,
    hsl.foldlM (fun acc h => do
        let col ← s'.cols[h]?
        pure (symmDiff acc col.cells)) acc
      = hsl.foldlM (fun acc h => do
        let col ← s.cols[h]?
        pure (symmDiff acc col.cells)) acc := by
  induction hsl with
  | nil => intro acc; rfl
  | cons h t ih =>
    intro acc
    rw [List.foldlM_cons, List.foldlM_cons, hcols h (List.mem_cons_self h t)]
    cases hcol : s.cols[h]? with
    | none => rfl
    | some col =>
      simp only [Option.pure_def, Option.bind_eq_bind, Option.some_bind]
      exact ih (fun x hx => hcols x (List.mem_cons_of_mem h hx)) (symmDiff acc col.cells)

/-- `_build_from_H` reads only the columns listed in `chainsInH` and the
insertion counter; two states agreeing there build the same chain. -/
theorem buildFromH_congr {s s' : CState} (hnext : s'.nextInsertIndex = s.nextInsertIndex)
    (hsl : List ℕ) (hcols : ∀ h ∈ hsl, s'.cols[h]? = s.cols[h]?) (tmp : Finset ℕ) :
    buildFromH s' tmp hsl = buildFromH s tmp hsl := by
  unfold buildFromH
  rw [hnext]
  exact buildFromH_fold_congr hsl hcols _

end GudhiPM

namespace GudhiPM

/-- `_insert_chain(column, dimension)` on an invariant state, for a chain whose
greatest row is `nextInsertIndex_`: the new column is appended unpaired with
pivot `nextInsertIndex_`, an essential bar is appended, and the invariant
extends to the grown matrix. -/
theorem insertChainU_spec {s : CState} (hs : Inv s) {res : Finset ℕ} {dim : ℕ}
    (hmax : setMax res = some s.nextInsertIndex)
    (hmem : s.nextInsertIndex ∈ res)
    (hb : ∀ x ∈ res, x ≤ s.nextInsertIndex) :
    ∃ s', insertChainU s res dim = some s' ∧ Inv s' ∧
      s'.nextInsertIndex = s.nextInsertIndex + 1 ∧
      s'.cols[s.nextInsertIndex]? = some ⟨res, (s.nextInsertIndex : ℤ), none, dim⟩ ∧
      (∀ j, j ≠ s.nextInsertIndex → s'.cols[j]? = s.cols[j]?) ∧
      s'.barcode = s.barcode ++ [⟨dim, s.nextInsertIndex, -1⟩] := by
  have hlen : s.cols.length = s.nextInsertIndex := hs.len
  have hconcat :
      (s.cols ++ [(⟨res, (s.nextInsertIndex : ℤ), none, dim⟩ : ChainCol)])[s.nextInsertIndex]?
        = some ⟨res, (s.nextInsertIndex : ℤ), none, dim⟩ := by
    have h := List.getElem?_concat_length s.cols
      (⟨res, (s.nextInsertIndex : ℤ), none, dim⟩ : ChainCol)
    rw [hlen] at h
    exact h
  have hother : ∀ j, j ≠ s.nextInsertIndex →
      (s.cols ++ [(⟨res, (s.nextInsertIndex : ℤ), none, dim⟩ : ChainCol)])[j]? = s.cols[j]? := by
    intro j hj
    rcases Nat.lt_or_ge j s.nextInsertIndex with hlt | hge
    · rw [List.getElem?_append, if_pos (by omega)]
    · have h1 : s.cols[j]? = none := List.getElem?_eq_none (by omega)
      have h2 : [(⟨res, (s.nextInsertIndex : ℤ), none, dim⟩ : ChainCol)][j - s.cols.length]?
          = none := List.getElem?_eq_none (by simp only [List.length_singleton]; omega)
      rw [List.getElem?_append, if_neg (by omega), h1, h2]
  have hnone : ∀ j, s.nextInsertIndex < j →
      (s.cols ++ [(⟨res, (s.nextInsertIndex : ℤ), none, dim⟩ : ChainCol)])[j]? = none := by
    intro j hj
    apply List.getElem?_eq_none
    simp only [List.length_append, List.length_singleton]
    omega
  refine ⟨CState.mk
      (s.cols ++ [⟨res, (s.nextInsertIndex : ℤ), none, dim⟩])
      (emplace s.pivMap s.nextInsertIndex s.nextInsertIndex)
      (s.nextInsertIndex + 1) s.dimensions s.maxDim
      (s.barcode ++ [⟨dim, s.nextInsertIndex, -1⟩])
      (emplace s.indexToBar s.nextInsertIndex s.barcode.length),
    ?_, ?_, rfl, hconcat, hother, rfl⟩
  · unfold insertChainU
    rw [hmax]
    rfl
  · constructor
    · show (s.cols ++ _).length = s.nextInsertIndex + 1
      simp only [List.length_append, List.length_singleton]
      omega
    · intro j c hj
      rcases Nat.lt_trichotomy j s.nextInsertIndex with hlt | heq | hgt
      · rw [show ((CState.mk _ _ _ _ _ _ _).cols) = _ from rfl, hother j (by omega)] at hj
        exact hs.colGood j c hj
      · subst heq
        rw [show ((CState.mk _ _ _ _ _ _ _).cols) = _ from rfl, hconcat] at hj
        cases Option.some.inj hj
        exact ⟨rfl, hmem, hb⟩
      · rw [show ((CState.mk _ _ _ _ _ _ _).cols) = _ from rfl, hnone j hgt] at hj
        exact absurd hj (by simp)
    · intro p
      show emplace s.pivMap s.nextInsertIndex s.nextInsertIndex p
        = if p < s.nextInsertIndex + 1 then some p else none
      unfold emplace
      rcases eq_or_ne p s.nextInsertIndex with rfl | hne
      · rw [if_pos rfl, hs.pmap, if_neg (by omega), if_pos (by omega)]
        rfl
      · rw [if_neg hne, hs.pmap]
        rcases Nat.lt_trichotomy p s.nextInsertIndex with hlt | heq | hgt
        · rw [if_pos (by omega), if_pos (by omega)]
        · exact absurd heq hne
        · rw [if_neg (by omega), if_neg (by omega)]
    · intro j c j' hj hc
      rcases Nat.lt_trichotomy j s.nextInsertIndex with hlt | heq | hgt
      · rw [show ((CState.mk _ _ _ _ _ _ _).cols) = _ from rfl, hother j (by omega)] at hj
        obtain ⟨hnej, c', hj', hc'⟩ := hs.pairGood j c j' hj hc
        have hj'lt : j' < s.nextInsertIndex := by
          have := (List.getElem?_eq_some.mp hj').1
          omega
        refine ⟨hnej, c', ?_, hc'⟩
        show (s.cols ++ _)[j']? = some c'
        rw [hother j' (by omega)]
        exact hj'
      · subst heq
        rw [show ((CState.mk _ _ _ _ _ _ _).cols) = _ from rfl, hconcat] at hj
        cases Option.some.inj hj
        exact absurd hc (by simp)
      · rw [show ((CState.mk _ _ _ _ _ _ _).cols) = _ from rfl, hnone j hgt] at hj
        exact absurd hj (by simp)
    · intro p hp
      have hp' : p < s.nextInsertIndex + 1 := hp
      show ∃ b, emplace s.indexToBar s.nextInsertIndex s.barcode.length p = some b ∧
        b < (s.barcode ++ [Bar.mk dim s.nextInsertIndex (-1)]).length
      unfold emplace
      rcases eq_or_ne p s.nextInsertIndex with rfl | hne
      · rw [if_pos rfl, hs.ibarNone _ le_rfl]
        refine ⟨s.barcode.length, rfl, ?_⟩
        simp only [List.length_append, List.length_singleton]
        omega
      · rw [if_neg hne]
        obtain ⟨b, hb1, hb2⟩ := hs.ibarLt p (by omega)
        refine ⟨b, hb1, ?_⟩
        simp only [List.length_append, List.length_singleton]
        omega
    · intro p hp
      have hp' : s.nextInsertIndex + 1 ≤ p := hp
      show emplace s.indexToBar s.nextInsertIndex s.barcode.length p = none
      unfold emplace
      rw [if_neg (by omega)]
      exact hs.ibarNone p (by omega)
    · intro j c hj hc
      rcases Nat.lt_trichotomy j s.nextInsertIndex with hlt | heq | hgt
      · rw [show ((CState.mk _ _ _ _ _ _ _).cols) = _ from rfl, hother j (by omega)] at hj
        obtain ⟨b, bar, hb1, hb2, hb3, hb4⟩ := hs.ubar j c hj hc
        have hblt : b < s.barcode.length := (List.getElem?_eq_some.mp hb2).1
        refine ⟨b, bar, ?_, ?_, hb3, hb4⟩
        · show emplace s.indexToBar s.nextInsertIndex s.barcode.length j = some b
          unfold emplace
          rw [if_neg (by omega)]
          exact hb1
        · show (s.barcode ++ [Bar.mk dim s.nextInsertIndex (-1)])[b]? = some bar
          rw [List.getElem?_append, if_pos hblt]
          exact hb2
      · subst heq
        rw [show ((CState.mk _ _ _ _ _ _ _).cols) = _ from rfl, hconcat] at hj
        cases Option.some.inj hj
        refine ⟨s.barcode.length, ⟨dim, s.nextInsertIndex, -1⟩, ?_, ?_, rfl, rfl⟩
        · show emplace s.indexToBar s.nextInsertIndex s.barcode.length s.nextInsertIndex = _
          unfold emplace
          rw [if_pos rfl, hs.ibarNone _ le_rfl]
          rfl
        · show (s.barcode ++ [Bar.mk dim s.nextInsertIndex (-1)])[s.barcode.length]? = _
          exact List.getElem?_concat_length _ _
      · rw [show ((CState.mk _ _ _ _ _ _ _).cols) = _ from rfl, hnone j hgt] at hj
        exact absurd hj (by simp)

end GudhiPM

namespace GudhiPM

/-- `_insert_chain(column, dimension, pair)` on an invariant state, for a chain
whose greatest row is `nextInsertIndex_` and an unpaired partner `fp`: the new
column is appended with pivot `nextInsertIndex_`, mutually paired with `fp`;
the essential bar of `fp` receives death `nextInsertIndex_`; the invariant
extends to the grown matrix. -/
theorem insertChainP_spec {s : CState} (hs : Inv s) {res : Finset ℕ} {dim fp : ℕ}
    (hmax : setMax res = some s.nextInsertIndex)
    (hmem : s.nextInsertIndex ∈ res)
    (hb : ∀ x ∈ res, x ≤ s.nextInsertIndex)
    {cfp : ChainCol} (hfpcol : s.cols[fp]? = some cfp) (hfpu : cfp.paired = none) :
    ∃ s' b bar, insertChainP s res dim fp = some s' ∧ Inv s' ∧
      s'.nextInsertIndex = s.nextInsertIndex + 1 ∧
      s'.cols[s.nextInsertIndex]? = some ⟨res, (s.nextInsertIndex : ℤ), some fp, dim⟩ ∧
      s'.cols[fp]? = some ⟨cfp.cells, cfp.pivot, some s.nextInsertIndex, cfp.dim⟩ ∧
      (∀ j, j ≠ s.nextInsertIndex → j ≠ fp → s'.cols[j]? = s.cols[j]?) ∧
      s.indexToBar fp = some b ∧ s.barcode[b]? = some bar ∧ bar.birth = fp ∧ bar.death = -1 ∧
      s'.barcode = s.barcode.set b ⟨bar.dim, bar.birth, (s.nextInsertIndex : ℤ)⟩ := by
  have hlen : s.cols.length = s.nextInsertIndex := hs.len
  have hfplen : fp < s.cols.length := (List.getElem?_eq_some.mp hfpcol).1
  have hfplt : fp < s.nextInsertIndex := by omega
  obtain ⟨hpivfp, _, _⟩ := hs.colGood fp cfp hfpcol
  obtain ⟨b, bar, hb1, hb2, hb3, hb4⟩ := hs.ubar fp cfp hfpcol hfpu
  have hblt : b < s.barcode.length := (List.getElem?_eq_some.mp hb2).1
  have htoNat : cfp.pivot.toNat = fp := by rw [hpivfp]; exact Int.toNat_natCast fp
  -- the grown column list
  have hsetlen : (s.cols.set fp ⟨cfp.cells, cfp.pivot, some s.nextInsertIndex, cfp.dim⟩).length
      = s.cols.length := List.length_set ..
  have hconcat :
      ((s.cols.set fp ⟨cfp.cells, cfp.pivot, some s.nextInsertIndex, cfp.dim⟩)
        ++ [(⟨res, (s.nextInsertIndex : ℤ), some fp, dim⟩ : ChainCol)])[s.nextInsertIndex]?
        = some ⟨res, (s.nextInsertIndex : ℤ), some fp, dim⟩ := by
    have h := List.getElem?_concat_length
      (s.cols.set fp ⟨cfp.cells, cfp.pivot, some s.nextInsertIndex, cfp.dim⟩)
      (⟨res, (s.nextInsertIndex : ℤ), some fp, dim⟩ : ChainCol)
    rw [hsetlen, hlen] at h
    exact h
  have hfp' :
      ((s.cols.set fp ⟨cfp.cells, cfp.pivot, some s.nextInsertIndex, cfp.dim⟩)
        ++ [(⟨res, (s.nextInsertIndex : ℤ), some fp, dim⟩ : ChainCol)])[fp]?
        = some ⟨cfp.cells, cfp.pivot, some s.nextInsertIndex, cfp.dim⟩ := by
    rw [List.getElem?_append, if_pos (by omega), List.getElem?_set_self hfplen]
  have hother : ∀ j, j ≠ s.nextInsertIndex → j ≠ fp →
      ((s.cols.set fp ⟨cfp.cells, cfp.pivot, some s.nextInsertIndex, cfp.dim⟩)
        ++ [(⟨res, (s.nextInsertIndex : ℤ), some fp, dim⟩ : ChainCol)])[j]? = s.cols[j]? := by
    intro j hj hjfp
    rcases Nat.lt_or_ge j s.nextInsertIndex with hlt | hge
    · rw [List.getElem?_append, if_pos (by omega), List.getElem?_set_ne (Ne.symm hjfp)]
    · have h1 : s.cols[j]? = none := List.getElem?_eq_none (by omega)
      rw [List.getElem?_append, if_neg (by omega), h1]
      apply List.getElem?_eq_none
      simp only [List.length_singleton]
      omega
  have hnone : ∀ j, s.nextInsertIndex < j →
      ((s.cols.set fp ⟨cfp.cells, cfp.pivot, some s.nextInsertIndex, cfp.dim⟩)
        ++ [(⟨res, (s.nextInsertIndex : ℤ), some fp, dim⟩ : ChainCol)])[j]? = none := by
    intro j hj
    apply List.getElem?_eq_none
    simp only [List.length_append, List.length_singleton, hsetlen]
    omega
  refine ⟨CState.mk
      ((s.cols.set fp ⟨cfp.cells, cfp.pivot, some s.nextInsertIndex, cfp.dim⟩)
        ++ [⟨res, (s.nextInsertIndex : ℤ), some fp, dim⟩])
      (emplace s.pivMap s.nextInsertIndex s.nextInsertIndex)
      (s.nextInsertIndex + 1) s.dimensions s.maxDim
      (s.barcode.set b ⟨bar.dim, bar.birth, (s.nextInsertIndex : ℤ)⟩)
      (emplace s.indexToBar s.nextInsertIndex b),
    b, bar, ?_, ?_, rfl, hconcat, hfp', hother, hb1, hb2, hb3, hb4, rfl⟩
  · unfold insertChainP
    rw [hmax]
    simp only [Option.pure_def, Option.bind_eq_bind, Option.some_bind, hfpcol, htoNat, hb1, hb2]
  · constructor
    · show ((s.cols.set fp ⟨cfp.cells, cfp.pivot, some s.nextInsertIndex, cfp.dim⟩)
          ++ [(⟨res, (s.nextInsertIndex : ℤ), some fp, dim⟩ : ChainCol)]).length
        = s.nextInsertIndex + 1
      simp only [List.length_append, List.length_singleton, hsetlen]
      omega
    · intro j c hj
      rcases Nat.lt_trichotomy j s.nextInsertIndex with hlt | heq | hgt
      · rcases eq_or_ne j fp with rfl | hjfp
        · rw [show ((CState.mk _ _ _ _ _ _ _).cols) = _ from rfl, hfp'] at hj
          cases Option.some.inj hj
          obtain ⟨h1, h2, h3⟩ := hs.colGood j cfp hfpcol
          exact ⟨h1, h2, h3⟩
        · rw [show ((CState.mk _ _ _ _ _ _ _).cols) = _ from rfl, hother j (by omega) hjfp] at hj
          exact hs.colGood j c hj
      · subst heq
        rw [show ((CState.mk _ _ _ _ _ _ _).cols) = _ from rfl, hconcat] at hj
        cases Option.some.inj hj
        exact ⟨rfl, hmem, hb⟩
      · rw [show ((CState.mk _ _ _ _ _ _ _).cols) = _ from rfl, hnone j hgt] at hj
        exact absurd hj (by simp)
    · intro p
      show emplace s.pivMap s.nextInsertIndex s.nextInsertIndex p
        = if p < s.nextInsertIndex + 1 then some p else none
      unfold emplace
      rcases eq_or_ne p s.nextInsertIndex with rfl | hne
      · rw [if_pos rfl, hs.pmap, if_neg (by omega), if_pos (by omega)]
        rfl
      · rw [if_neg hne, hs.pmap]
        rcases Nat.lt_trichotomy p s.nextInsertIndex with hlt | heq | hgt
        · rw [if_pos (by omega), if_pos (by omega)]
        · exact absurd heq hne
        · rw [if_neg (by omega), if_neg (by omega)]
    · intro j c j' hj hc
      rcases Nat.lt_trichotomy j s.nextInsertIndex with hlt | heq | hgt
      · rcases eq_or_ne j fp with rfl | hjfp
        · rw [show ((CState.mk _ _ _ _ _ _ _).cols) = _ from rfl, hfp'] at hj
          cases Option.some.inj hj
          have hj' : j' = s.nextInsertIndex := by
            have : (some s.nextInsertIndex : Option ℕ) = some j' := hc
            exact (Option.some.inj this).symm
          subst hj'
          exact ⟨by omega, _, hconcat, rfl⟩
        · rw [show ((CState.mk _ _ _ _ _ _ _).cols) = _ from rfl, hother j (by omega) hjfp] at hj
          obtain ⟨hnej, c', hjc', hc'⟩ := hs.pairGood j c j' hj hc
          have hj'lt : j' < s.nextInsertIndex := by
            have := (List.getElem?_eq_some.mp hjc').1
            omega
          have hj'fp : j' ≠ fp := by
            rintro rfl
            rw [hfpcol] at hjc'
            cases Option.some.inj hjc'
            rw [hfpu] at hc'
            exact absurd hc' (by simp)
          refine ⟨hnej, c', ?_, hc'⟩
          show (_ ++ _)[j']? = some c'
          rw [hother j' (by omega) hj'fp]
          exact hjc'
      · subst heq
        rw [show ((CState.mk _ _ _ _ _ _ _).cols) = _ from rfl, hconcat] at hj
        cases Option.some.inj hj
        have hj' : j' = fp := by
          have : (some fp : Option ℕ) = some j' := hc
          exact (Option.some.inj this).symm
        subst hj'
        exact ⟨by omega, _, hfp', rfl⟩
      · rw [show ((CState.mk _ _ _ _ _ _ _).cols) = _ from rfl, hnone j hgt] at hj
        exact absurd hj (by simp)
    · intro p hp
      have hp' : p < s.nextInsertIndex + 1 := hp
      show ∃ b', emplace s.indexToBar s.nextInsertIndex b p = some b' ∧
        b' < (s.barcode.set b ⟨bar.dim, bar.birth, (s.nextInsertIndex : ℤ)⟩).length
      unfold emplace
      rcases eq_or_ne p s.nextInsertIndex with rfl | hne
      · rw [if_pos rfl, hs.ibarNone _ le_rfl]
        refine ⟨b, rfl, ?_⟩
        rw [List.length_set]
        exact hblt
      · rw [if_neg hne]
        obtain ⟨b', hb1', hb2'⟩ := hs.ibarLt p (by omega)
        refine ⟨b', hb1', ?_⟩
        rw [List.length_set]
        exact hb2'
    · intro p hp
      have hp' : s.nextInsertIndex + 1 ≤ p := hp
      show emplace s.indexToBar s.nextInsertIndex b p = none
      unfold emplace
      rw [if_neg (by omega)]
      exact hs.ibarNone p (by omega)
    · intro j c hj hc
      rcases Nat.lt_trichotomy j s.nextInsertIndex with hlt | heq | hgt
      · rcases eq_or_ne j fp with rfl | hjfp
        · rw [show ((CState.mk _ _ _ _ _ _ _).cols) = _ from rfl, hfp'] at hj
          cases Option.some.inj hj
          exact absurd hc (by simp)
        · rw [show ((CState.mk _ _ _ _ _ _ _).cols) = _ from rfl, hother j (by omega) hjfp] at hj
          obtain ⟨bj, barj, hbj1, hbj2, hbj3, hbj4⟩ := hs.ubar j c hj hc
          have hbjlt : bj < s.barcode.length := (List.getElem?_eq_some.mp hbj2).1
          have hbjb : bj ≠ b := by
            rintro rfl
            rw [hb2] at hbj2
            cases Option.some.inj hbj2
            exact hjfp (hbj3.symm.trans hb3)
          refine ⟨bj, barj, ?_, ?_, hbj3, hbj4⟩
          · show emplace s.indexToBar s.nextInsertIndex b j = some bj
            unfold emplace
            rw [if_neg (by omega)]
            exact hbj1
          · show (s.barcode.set b ⟨bar.dim, bar.birth, (s.nextInsertIndex : ℤ)⟩)[bj]? = some barj
            rw [List.getElem?_set_ne (Ne.symm hbjb)]
            exact hbj2
      · subst heq
        rw [show ((CState.mk _ _ _ _ _ _ _).cols) = _ from rfl, hconcat] at hj
        cases Option.some.inj hj
        exact absurd hc (by simp)
      · rw [show ((CState.mk _ _ _ _ _ _ _).cols) = _ from rfl, hnone j hgt] at hj
        exact absurd hj (by simp)

end GudhiPM

namespace GudhiPM

theorem bumpDim_cols (s : CState) (d : ℕ) : (bumpDim s d).cols = s.cols := by
  unfold bumpDim
  split <;> rfl

theorem bumpDim_pivMap (s : CState) (d : ℕ) : (bumpDim s d).pivMap = s.pivMap := by
  unfold bumpDim
  split <;> rfl

theorem bumpDim_next (s : CState) (d : ℕ) : (bumpDim s d).nextInsertIndex = s.nextInsertIndex := by
  unfold bumpDim
  split <;> rfl

theorem bumpDim_barcode (s : CState) (d : ℕ) : (bumpDim s d).barcode = s.barcode := by
  unfold bumpDim
  split <;> rfl

theorem bumpDim_indexToBar (s : CState) (d : ℕ) :
    (bumpDim s d).indexToBar = s.indexToBar := by
  unfold bumpDim
  split <;> rfl

/-- The `maxDim_` / `dimensions_` bookkeeping does not touch the invariant. -/
theorem bumpDim_inv {s : CState} (hs : Inv s) (d : ℕ) : Inv (bumpDim s d) := by
  refine hs.transfer (bumpDim_next s d) (by rw [bumpDim_cols]) ?_ (bumpDim_barcode s d) ?_ ?_ ?_
  · intro p
    rw [bumpDim_pivMap]
  · intro p
    rw [bumpDim_indexToBar]
  · intro j c hj
    rw [bumpDim_cols] at hj
    exact hs.colGood j c hj
  · intro j
    rw [bumpDim_cols]

end GudhiPM

namespace GudhiPM

/-- `insert_boundary` on an invariant state with a valid boundary (all its
rows name previously inserted faces): the call succeeds, the invariant
extends, and the postcondition of `_reduce_boundary` holds — the recorded H
indices are paired columns, the recorded essential-cycle indices are unpaired
columns in strictly decreasing order, the new column (`k = nextInsertIndex_`)
is built by `_build_from_H` as `σ + Σ colₕ`; when no F column was met the new
column is inserted unpaired with a fresh essential bar, otherwise it is paired
with the first recorded F index (the unpaired column with the largest pivot)
whose essential bar receives death `k`. -/
theorem insertBoundary_spec {s : CState} (hs : Inv s) {boundary : List ℕ}
    (hval : ∀ x ∈ boundary, x < s.nextInsertIndex) :
    ∃ s' es hsl cells, insertBoundary s boundary = some (s', es, hsl) ∧ Inv s' ∧
      s'.nextInsertIndex = s.nextInsertIndex + 1 ∧
      (∀ h ∈ hsl, h < s.nextInsertIndex ∧ ∃ c, s.cols[h]? = some c ∧ c.paired.isSome) ∧
      (∀ e ∈ es, e < s.nextInsertIndex ∧ ∃ c, s.cols[e]? = some c ∧ c.paired = none) ∧
      List.Pairwise (· > ·) es ∧
      buildFromH s ∅ hsl = some cells ∧
      (es = [] →
        s'.cols[s.nextInsertIndex]? = some ⟨cells, (s.nextInsertIndex : ℤ), none,
          if boundary.length = 0 then 0 else boundary.length - 1⟩ ∧
        s'.barcode = s.barcode ++
          [⟨if boundary.length = 0 then 0 else boundary.length - 1, s.nextInsertIndex, -1⟩]) ∧
      (∀ fp rest, es = fp :: rest →
        s'.cols[s.nextInsertIndex]? = some ⟨cells, (s.nextInsertIndex : ℤ), some fp,
          if boundary.length = 0 then 0 else boundary.length - 1⟩ ∧
        (∃ c', s'.cols[fp]? = some c' ∧ c'.paired = some s.nextInsertIndex) ∧
        (∃ b bar, s.indexToBar fp = some b ∧ s.barcode[b]? = some bar ∧
          bar.birth = fp ∧ bar.death = -1 ∧
          s'.barcode = s.barcode.set b ⟨bar.dim, bar.birth, (s.nextInsertIndex : ℤ)⟩)) := by
  rcases boundary with _ | ⟨b0, btail⟩
  · -- empty boundary: a new essential chain {k}
    have hsb : Inv (bumpDim s 0) := bumpDim_inv hs 0
    have hbn := bumpDim_next s 0
    have hbc := bumpDim_cols s 0
    have hbb := bumpDim_barcode s 0
    have hmax : setMax (insert (bumpDim s 0).nextInsertIndex
        (List.toFinset ([] : List ℕ))) = some (bumpDim s 0).nextInsertIndex := by
      unfold setMax
      rw [dif_pos ⟨_, Finset.mem_insert_self _ _⟩]
      congr 1
    obtain ⟨s', hU, hinv', hn', hcolk, _, hbar'⟩ :=
      @insertChainU_spec (bumpDim s 0) hsb _ 0 hmax (Finset.mem_insert_self _ _) (by
        intro x hx
        rcases Finset.mem_insert.mp hx with rfl | hx
        · exact le_rfl
        · exact absurd hx (by simp))
    rw [hbn] at hn' hcolk
    rw [hbn, hbb] at hbar'
    refine ⟨s', [], [], insert s.nextInsertIndex (List.toFinset ([] : List ℕ)),
      ?_, hinv', hn', by simp, by simp, List.Pairwise.nil, rfl, ?_, ?_⟩
    · show insertBoundary s [] = some (s', [], [])
      unfold insertBoundary
      simp only [Option.pure_def, Option.bind_eq_bind, List.isEmpty_nil, List.length_nil,
        if_pos rfl, if_true]
      rw [hU]
      rfl
    · intro _
      exact ⟨hcolk, hbar'⟩
    · intro fp rest h
      exact absurd h (by simp)
  · -- nonempty boundary
    have hite : (if (b0 :: btail).length = 0 then 0 else (b0 :: btail).length - 1)
        = btail.length := rfl
    have hsb : Inv (bumpDim s btail.length) := bumpDim_inv hs btail.length
    have hbn := bumpDim_next s btail.length
    have hbc := bumpDim_cols s btail.length
    have hbb := bumpDim_barcode s btail.length
    have hbp := bumpDim_pivMap s btail.length
    have hbi := bumpDim_indexToBar s btail.length
    have hvalb : ∀ x ∈ (b0 :: btail).toFinset, x < (bumpDim s btail.length).nextInsertIndex := by
      intro x hx
      rw [hbn]
      exact hval x (List.mem_toFinset.mp hx)
    have htfne : (b0 :: btail).toFinset.Nonempty :=
      ⟨b0, List.mem_toFinset.mpr (List.mem_cons_self b0 btail)⟩
    obtain ⟨tmp1, hsl1, hL1, htmp1k, hhsl1, hdisj⟩ :=
      reduceLoop1_spec hsb ((bumpDim s btail.length).nextInsertIndex + 1)
        (b0 :: btail).toFinset [] hvalb
        (fun x hx => by have := hvalb x hx; omega) htfne (by simp)
    by_cases hempty1 : tmp1 = ∅
    · -- the boundary fully reduced against paired columns: new essential chain
      subst hempty1
      obtain ⟨cells, hBH, hkmem, hkb, hkmax⟩ :=
        buildFromH_spec hsb hsl1 (fun h hh => (hhsl1 h hh).1)
      obtain ⟨s', hU, hinv', hn', hcolk, _, hbar'⟩ :=
        insertChainU_spec hsb hkmax hkmem hkb
      rw [hbn] at hn' hcolk
      rw [hbn, hbb] at hbar'
      have hBHs : buildFromH s ∅ hsl1 = some cells := by
        rw [← hBH]
        apply (buildFromH_congr hbn hsl1 ?_ ∅).symm
        intro h _
        rw [hbc]
      refine ⟨s', [], hsl1, cells, ?_, hinv', hn', ?_, by simp, List.Pairwise.nil, hBHs,
        ?_, ?_⟩
      · show insertBoundary s (b0 :: btail) = some (s', [], hsl1)
        unfold insertBoundary
        simp only [Option.pure_def, Option.bind_eq_bind, List.isEmpty_cons, Bool.false_eq_true,
          if_false, hite]
        rw [hL1]
        simp only [Option.some_bind, if_pos rfl]
        rw [hBH]
        simp only [Option.some_bind]
        rw [hU]
        rfl
      · intro h hh
        obtain ⟨h1, c, hc, hc2⟩ := hhsl1 h hh
        rw [hbn] at h1
        rw [hbc] at hc
        exact ⟨h1, c, hc, hc2⟩
      · intro _
        exact ⟨hcolk, hbar'⟩
      · intro fp rest h
        exact absurd h (by simp)
    · -- an unpaired column owns the greatest row: pairing path
      have hne1 : tmp1.Nonempty := Finset.nonempty_iff_ne_empty.mpr hempty1
      obtain ⟨m, colm, hmmax, hmpm, hmcol, hmunp⟩ := hdisj.resolve_left hempty1
      have hmtmp1 : m ∈ tmp1 := by
        have : tmp1.max' hne1 = m := by
          have h := hmmax
          unfold setMax at h
          rw [dif_pos hne1] at h
          exact Option.some.inj h
        rw [← this]
        exact tmp1.max'_mem hne1
      have hmk : m < (bumpDim s btail.length).nextInsertIndex := htmp1k m hmtmp1
      obtain ⟨hmpiv, hmmem, hmle⟩ := hsb.colGood m colm hmcol
      -- the working set after the first F reduction
      have htmp2lt : ∀ x ∈ symmDiff tmp1 colm.cells, x < m := by
        intro x hx
        have hxle : x ≤ m := by
          rw [Finset.mem_symmDiff] at hx
          rcases hx with ⟨hx, _⟩ | ⟨hx, _⟩
          · have : tmp1.max' hne1 = m := by
              have h := hmmax
              unfold setMax at h
              rw [dif_pos hne1] at h
              exact Option.some.inj h
            rw [← this]
            exact tmp1.le_max' x hx
          · exact hmle x hx
        rcases Nat.lt_or_ge x m with hlt | hge
        · exact hlt
        · have : x = m := by omega
          subst this
          rw [Finset.mem_symmDiff] at hx
          rcases hx with ⟨_, habs⟩ | ⟨_, habs⟩
          · exact absurd hmmem habs
          · exact absurd hmtmp1 habs
      obtain ⟨hsl2, delta', hL2, hhsl2, hdelta', hbnd', hpw'⟩ :=
        reduceLoop2_spec hsb (bumpDim s btail.length).nextInsertIndex
          (symmDiff tmp1 colm.cells) hsl1 [m] (by omega)
          (fun x hx => Nat.lt_trans (htmp2lt x hx) hmk)
          (fun x hx => by have := htmp2lt x hx; omega) hhsl1
      -- one manual step of the loop: the first iteration is the F reduction at m
      have heqstep : reduceLoop2 (bumpDim s btail.length)
          ((bumpDim s btail.length).nextInsertIndex + 1) tmp1 hsl1 []
          = reduceLoop2 (bumpDim s btail.length) (bumpDim s btail.length).nextInsertIndex
              (symmDiff tmp1 colm.cells) hsl1 [m] := by
        conv_lhs => rw [reduceLoop2]
        rw [if_neg hempty1, hmmax]
        simp only [Option.pure_def, Option.bind_eq_bind, Option.some_bind, hmpm, hmcol, hmunp,
          List.nil_append]
      have heq2 : reduceLoop2 (bumpDim s btail.length)
          ((bumpDim s btail.length).nextInsertIndex + 1) tmp1 hsl1 []
          = some (hsl2, [m] ++ delta') := by
        rw [heqstep, hL2]
      have hrest : ∀ j ∈ delta', j < m := by
        intro j hj
        obtain ⟨x, hx, hjx⟩ := hbnd' j hj
        exact Nat.lt_of_le_of_lt hjx (htmp2lt x hx)
      obtain ⟨s2, hUF, hinv2, hn2, hpm2, hbar2, hibar2, _, _, hoth2, hpair2, hpiv2⟩ :=
        updateF_fold delta' (bumpDim s btail.length) hsb hmk hrest
      -- build σ + Σ colₕ in the updated state
      have hhsl2' : ∀ h ∈ hsl2, h < s2.nextInsertIndex := by
        intro h hh
        rw [hn2]
        exact (hhsl2 h hh).1
      obtain ⟨cells, hBH, hkmem, hkb, hkmax⟩ := buildFromH_spec hinv2 hsl2 hhsl2'
      -- the H columns were not touched by the F update
      have hhsl2ne : ∀ h ∈ hsl2, h ≠ m := by
        intro h hh hcontra
        obtain ⟨_, c, hc, hcp⟩ := hhsl2 h hh
        subst hcontra
        rw [hmcol] at hc
        cases Option.some.inj hc
        rw [hmunp] at hcp
        exact absurd hcp (by simp)
      have hBHsb : buildFromH (bumpDim s btail.length) ∅ hsl2 = some cells := by
        rw [← hBH]
        apply (buildFromH_congr hn2 hsl2 ?_ ∅).symm
        intro h hh
        exact hoth2 h (hhsl2ne h hh)
      have hBHs : buildFromH s ∅ hsl2 = some cells := by
        rw [← hBHsb]
        apply (buildFromH_congr hbn hsl2 ?_ ∅).symm
        intro h _
        rw [hbc]
      -- the paired partner in the updated state
      obtain ⟨cfp2, hcfp2⟩ : ∃ c, s2.cols[m]? = some c := by
        have := hpair2
        rw [hmcol] at this
        cases hsc : s2.cols[m]? with
        | none => rw [hsc] at this; exact absurd this (by simp)
        | some c => exact ⟨c, rfl⟩
      have hcfp2unp : cfp2.paired = none := by
        have := hpair2
        rw [hmcol, hcfp2] at this
        simp only [Option.map_some'] at this
        rw [Option.some.inj this, hmunp]
      have hkmax2 : setMax cells = some s2.nextInsertIndex := hkmax
      obtain ⟨s3, b, bar, hP, hinv3, hn3, hcolk3, hcolfp3, _, hib3, hbar3, hbirth3, hdeath3,
        hbar3'⟩ := insertChainP_spec hinv2 hkmax2 hkmem hkb hcfp2 hcfp2unp
      -- transfer the barcode facts back to the input state
      rw [hibar2, hbi] at hib3
      rw [hbar2, hbb] at hbar3
      rw [hn2, hbn] at hn3 hcolk3
      rw [hbar2, hbb] at hbar3'
      rw [hn2, hbn] at hbar3'
      rw [hn2, hbn] at hcolfp3
      refine ⟨s3, m :: delta', hsl2, cells, ?_, hinv3, hn3, ?_, ?_, ?_, hBHs, ?_, ?_⟩
      · show insertBoundary s (b0 :: btail) = some (s3, m :: delta', hsl2)
        unfold insertBoundary
        simp only [Option.pure_def, Option.bind_eq_bind, List.isEmpty_cons, Bool.false_eq_true,
          if_false, hite]
        rw [hL1]
        simp only [Option.some_bind, if_neg hempty1]
        rw [heq2]
        simp only [Option.some_bind, List.singleton_append, List.head?_cons]
        show (updateLargestDeathInF (bumpDim s btail.length) (m :: delta') m).bind _ = _
        have hUF' : updateLargestDeathInF (bumpDim s btail.length) (m :: delta') m
            = some s2 := by
          unfold updateLargestDeathInF
          simp only [List.drop_one, List.tail_cons]
          exact hUF
        rw [hUF']
        simp only [Option.some_bind]
        rw [hBH]
        simp only [Option.some_bind]
        rw [hP]
        rfl
      · intro h hh
        obtain ⟨h1, c, hc, hc2⟩ := hhsl2 h hh
        rw [hbn] at h1
        rw [hbc] at hc
        exact ⟨h1, c, hc, hc2⟩
      · intro e he
        rcases List.mem_cons.mp he with rfl | he
        · refine ⟨by rw [← hbn]; exact hmk, colm, by rw [← hbc]; exact hmcol, hmunp⟩
        · obtain ⟨h1, c, hc, hc2⟩ := hdelta' e he
          rw [hbn] at h1
          rw [hbc] at hc
          exact ⟨h1, c, hc, hc2⟩
      · rw [List.pairwise_cons]
        exact ⟨fun e he => hrest e he, hpw'⟩
      · intro habs
        exact absurd habs (by simp)
      · intro fp rest hfr
        have hfp : fp = m := (List.cons.inj hfr).1.symm
        subst hfp
        exact ⟨hcolk3, ⟨⟨cfp2.cells, cfp2.pivot, some s.nextInsertIndex, cfp2.dim⟩,
          hcolfp3, rfl⟩, b, bar, hib3, hbar3, hbirth3, hdeath3, hbar3'⟩

end GudhiPM

namespace GudhiPM

/-- Folding `insert_boundary` over boundaries that only reference previously
inserted faces keeps the invariant; each insertion adds exactly one column. -/
theorem insertAll_fold {bs : List (List ℕ)} :
    ∀ (s0 : CState), Inv s0 →
    (∀ i (h : i < bs.length), ∀ x ∈ bs[i], x < s0.nextInsertIndex + i) →
    ∃ s, bs.foldlM (fun s b => do
        let r ← insertBoundary s b
        pure r.1) s0 = some s ∧
      Inv s ∧ s.nextInsertIndex = s0.nextInsertIndex + bs.length := by
  induction bs with
  | nil =>
    intro s0 h _
    exact ⟨s0, rfl, h, by simp⟩
  | cons b bs ih =>
    intro s0 h0 hv
    have hb : ∀ x ∈ b, x < s0.nextInsertIndex := by
      have := hv 0 (by simp)
      simpa using this
    obtain ⟨s1, es, hsl, cells, heq, hinv1, hn1, _⟩ := insertBoundary_spec h0 hb
    obtain ⟨s, hfold, hinv, hn⟩ := ih s1 hinv1 (by
      intro i hi x hx
      have := hv (i + 1) (by simpa using Nat.succ_lt_succ hi) x (by simpa using hx)
      omega)
    refine ⟨s, ?_, hinv, by rw [hn, hn1]; simp; omega⟩
    rw [List.foldlM_cons, heq]
    simp only [Option.pure_def, Option.bind_eq_bind, Option.some_bind]
    exact hfold

/-- Any valid sequence of `insert_boundary` calls succeeds from the empty
matrix and reaches an invariant state with one column per boundary. -/
theorem insertAll_spec {bs : List (List ℕ)} (hv : ValidBoundaries bs) :
    ∃ s, insertAll bs = some s ∧ Inv s ∧ s.nextInsertIndex = bs.length := by
  obtain ⟨s, hfold, hinv, hn⟩ := insertAll_fold CState.empty inv_empty (by
    intro i hi x hx
    have := hv i hi x hx
    simpa [CState.empty] using this)
  exact ⟨s, hfold, hinv, by simpa [CState.empty] using hn⟩

/-- C1: after any sequence of `insert_boundary` calls (including the column
additions they trigger through `_update_largest_death_in_F`), no two columns
report the same pivot, every column is non-empty and `pivotToColumnIndex_`
maps its pivot back to exactly that column, and every key of
`pivotToColumnIndex_` is the pivot of the column it maps to. -/
theorem chain_pivot_bijection {bs : List (List ℕ)} (hv : ValidBoundaries bs) :
    ∃ s, insertAll bs = some s ∧
      (∀ (i j : ℕ) (ci cj : ChainCol), s.cols[i]? = some ci → s.cols[j]? = some cj → i ≠ j →
        ci.pivot ≠ cj.pivot) ∧
      (∀ (j : ℕ) (c : ChainCol), s.cols[j]? = some c →
        c.cells.Nonempty ∧ s.pivMap c.pivot.toNat = some j) ∧
      (∀ p i, s.pivMap p = some i → ∃ c, s.cols[i]? = some c ∧ c.pivot = (p : ℤ)) := by
  obtain ⟨s, hins, hinv, _⟩ := insertAll_spec hv
  refine ⟨s, hins, ?_, ?_, ?_⟩
  · intro i j ci cj hi hj hne
    obtain ⟨hpi, _, _⟩ := hinv.colGood i ci hi
    obtain ⟨hpj, _, _⟩ := hinv.colGood j cj hj
    rw [hpi, hpj]
    exact fun h => hne (Nat.cast_injective h)
  · intro j c hj
    obtain ⟨hp, hmem, _⟩ := hinv.colGood j c hj
    have hjlt : j < s.nextInsertIndex := by
      have := (List.getElem?_eq_some.mp hj).1
      rw [hinv.len] at this
      exact this
    refine ⟨⟨j, hmem⟩, ?_⟩
    rw [hp, Int.toNat_natCast, hinv.pmap, if_pos hjlt]
  · intro p i hpi
    rw [hinv.pmap] at hpi
    by_cases hp : p < s.nextInsertIndex
    · rw [if_pos hp] at hpi
      cases Option.some.inj hpi
      obtain ⟨c, hc⟩ := hinv.getCol hp
      exact ⟨c, hc, (hinv.colGood _ c hc).1⟩
    · rw [if_neg hp] at hpi
      exact absurd hpi (by simp)

theorem chain_pivot_bijection_witness :
    ValidBoundaries [[], [], [0, 1]] ∧
    (∃ s, insertAll [[], [], [0, 1]] = some s ∧
      (∀ (i j : ℕ) (ci cj : ChainCol), s.cols[i]? = some ci → s.cols[j]? = some cj → i ≠ j →
        ci.pivot ≠ cj.pivot) ∧
      (∀ (j : ℕ) (c : ChainCol), s.cols[j]? = some c →
        c.cells.Nonempty ∧ s.pivMap c.pivot.toNat = some j) ∧
      (∀ p i, s.pivMap p = some i → ∃ c, s.cols[i]? = some c ∧ c.pivot = (p : ℤ))) :=
  ⟨by unfold ValidBoundaries; decide, chain_pivot_bijection (by unfold ValidBoundaries; decide)⟩

end GudhiPM

namespace GudhiPM

/-- C2 counterexample: insert `{}, {}` then the boundary `{0,1}`.  The
returned essential-cycle indices are `[1, 0]` — the reduction met the unpaired
columns 1 then 0, so the *last-reduced* F column is 0 — yet the inserted
column 2 is paired with column 1 (`currentEssentialCycleIndices.front()`),
not with the last-reduced column 0. -/
theorem insert_boundary_pairs_first_not_last :
    (do
      let s ← insertAll [[], []]
      let r ← insertBoundary s [0, 1]
      some (r.2.1, (r.1.cols[2]?).map ChainCol.paired))
      = some ([1, 0], some (some 1)) ∧ (some (1 : ℕ) : Option ℕ) ≠ some 0 :=
  ⟨rfl, by decide⟩

/-- C2 amended: on any reachable chain matrix, `insert_boundary` with a valid
boundary either creates a new unpaired (essential, positive) chain — exactly
when no unpaired column was met during the reduction — or pairs the new column
with the *first*-reduced unpaired (F) column (the one with the largest pivot),
records the birth-death pair in the barcode (death of that column's essential
bar becomes the new index), and in both cases the inserted column is the
original chain `σ` plus the sum of the H contributions accumulated during the
reduction (`_build_from_H` over the recorded paired partners). -/
theorem insert_boundary_postcondition {bs : List (List ℕ)} (hv : ValidBoundaries bs)
    {s : CState} (hins : insertAll bs = some s) {boundary : List ℕ}
    (hval : ∀ x ∈ boundary, x < s.nextInsertIndex) :
    ∃ s' es hsl cells, insertBoundary s boundary = some (s', es, hsl) ∧
      s'.nextInsertIndex = s.nextInsertIndex + 1 ∧
      (∀ h ∈ hsl, h < s.nextInsertIndex ∧ ∃ c, s.cols[h]? = some c ∧ c.paired.isSome) ∧
      (∀ e ∈ es, e < s.nextInsertIndex ∧ ∃ c, s.cols[e]? = some c ∧ c.paired = none) ∧
      List.Pairwise (· > ·) es ∧
      buildFromH s ∅ hsl = some cells ∧
      (es = [] →
        s'.cols[s.nextInsertIndex]? = some ⟨cells, (s.nextInsertIndex : ℤ), none,
          if boundary.length = 0 then 0 else boundary.length - 1⟩ ∧
        s'.barcode = s.barcode ++
          [⟨if boundary.length = 0 then 0 else boundary.length - 1, s.nextInsertIndex, -1⟩]) ∧
      (∀ fp rest, es = fp :: rest →
        s'.cols[s.nextInsertIndex]? = some ⟨cells, (s.nextInsertIndex : ℤ), some fp,
          if boundary.length = 0 then 0 else boundary.length - 1⟩ ∧
        (∃ c', s'.cols[fp]? = some c' ∧ c'.paired = some s.nextInsertIndex) ∧
        (∃ b bar, s.indexToBar fp = some b ∧ s.barcode[b]? = some bar ∧
          bar.birth = fp ∧ bar.death = -1 ∧
          s'.barcode = s.barcode.set b ⟨bar.dim, bar.birth, (s.nextInsertIndex : ℤ)⟩)) := by
  obtain ⟨s0, h0, hinv, _⟩ := insertAll_spec hv
  rw [hins] at h0
  cases Option.some.inj h0
  obtain ⟨s', es, hsl, cells, heq, _, hrest⟩ := insertBoundary_spec hinv hval
  exact ⟨s', es, hsl, cells, heq, hrest⟩

theorem insert_boundary_postcondition_witness :
    ValidBoundaries [[], []] ∧
    ∃ s, insertAll [[], []] = some s ∧ (∀ x ∈ [0, 1], x < s.nextInsertIndex) ∧
    ∃ s' es hsl cells, insertBoundary s [0, 1] = some (s', es, hsl) ∧
      s'.nextInsertIndex = s.nextInsertIndex + 1 ∧
      (∀ h ∈ hsl, h < s.nextInsertIndex ∧ ∃ c, s.cols[h]? = some c ∧ c.paired.isSome) ∧
      (∀ e ∈ es, e < s.nextInsertIndex ∧ ∃ c, s.cols[e]? = some c ∧ c.paired = none) ∧
      List.Pairwise (· > ·) es ∧
      buildFromH s ∅ hsl = some cells := by
  refine ⟨by unfold ValidBoundaries; decide, ?_⟩
  have hv : ValidBoundaries [[], []] := by unfold ValidBoundaries; decide
  obtain ⟨s, hins, hinv, hn⟩ := insertAll_spec hv
  have hn2 : s.nextInsertIndex = 2 := by simpa using hn
  have hval : ∀ x ∈ [0, 1], x < s.nextInsertIndex := by
    intro x hx
    rw [hn2]
    rcases List.mem_cons.mp hx with rfl | hx
    · omega
    · rw [List.mem_singleton.mp hx]
      omega
  obtain ⟨s', es, hsl, cells, heq, hn', hh, he, hpw, hbh, _⟩ :=
    insert_boundary_postcondition hv hins hval
  exact ⟨s, hins, hval, s', es, hsl, cells, heq, hn', hh, he, hpw, hbh⟩

end GudhiPM

namespace GudhiPM

/-- The fold inside `update_representative_cycles` on an invariant state:
every pivot lookup succeeds (`pivotToColumnIndex_` maps pivot `i` to column
`i`), and the collected cycles are exactly the sorted row sets of the
qualifying columns, in index order. -/
theorem repCycles_fold {s : CState} (hs : Inv s) (l : List ℕ)
    (hl : ∀ i ∈ l, i < s.nextInsertIndex) :
    ∀ acc : List (List ℕ) × List ℤ,
    ∃ r, l.foldlM (fun acc i => do
        let cp ← s.pivMap i
        let col ← s.cols[cp]?
        let qualifies := match col.paired with
          | none => true
          | some j => i < j
        if qualifies then
          pure (acc.1 ++ [col.cells.sort (· ≤ ·)], acc.2.set i (acc.1.length : ℤ))
        else
          pure acc) acc = some r ∧
      r.1 = acc.1 ++ l.filterMap (fun j =>
        match s.cols[j]? with
        | none => none
        | some c =>
          match c.paired with
          | none => some (c.cells.sort (· ≤ ·))
          | some j' => if j < j' then some (c.cells.sort (· ≤ ·)) else none) := by
  induction l with
  | nil => intro acc; exact ⟨acc, rfl, by simp⟩
  | cons i l ih =>
    intro acc
    have hik : i < s.nextInsertIndex := hl i (List.mem_cons_self i l)
    have hpm : s.pivMap i = some i := by rw [hs.pmap, if_pos hik]
    obtain ⟨c, hc⟩ := hs.getCol hik
    have hl' : ∀ x ∈ l, x < s.nextInsertIndex := fun x hx => hl x (List.mem_cons_of_mem i hx)
    cases hp : c.paired with
    | none =>
      obtain ⟨r, heq, hr⟩ := ih hl' (acc.1 ++ [c.cells.sort (· ≤ ·)],
        acc.2.set i (acc.1.length : ℤ))
      refine ⟨r, ?_, ?_⟩
      · rw [List.foldlM_cons]
        simp only [Option.pure_def, Option.bind_eq_bind, Option.some_bind, hpm, hc, hp,
          if_true]
        exact heq
      · rw [hr]
        simp only [List.filterMap_cons, hc, hp, List.append_assoc, List.singleton_append]
    | some j' =>
      by_cases hij : i < j'
      · obtain ⟨r, heq, hr⟩ := ih hl' (acc.1 ++ [c.cells.sort (· ≤ ·)],
          acc.2.set i (acc.1.length : ℤ))
        refine ⟨r, ?_, ?_⟩
        · rw [List.foldlM_cons]
          simp only [Option.pure_def, Option.bind_eq_bind, Option.some_bind, hpm, hc, hp,
            decide_eq_true_eq, if_pos hij]
          exact heq
        · rw [hr]
          simp only [List.filterMap_cons, hc, hp, if_pos hij, List.append_assoc,
            List.singleton_append]
      · obtain ⟨r, heq, hr⟩ := ih hl' acc
        refine ⟨r, ?_, ?_⟩
        · rw [List.foldlM_cons]
          simp only [Option.pure_def, Option.bind_eq_bind, Option.some_bind, hpm, hc, hp,
            decide_eq_true_eq, if_neg hij]
          exact heq
        · rw [hr]
          simp only [List.filterMap_cons, hc, hp, if_neg hij]

/-- C9: on any reachable chain-matrix state, `update_representative_cycles()`
succeeds and produces exactly one cycle for every column that owns a pivot and
is not the earlier end of a pair (unpaired, or index below its paired
partner's index): the cycle is the column's row-index list, and every cycle is
sorted (the intrusive-list backing iterates rows in increasing order; the
extra sort for heap / unordered-set backings is the identity). -/
theorem representative_cycles_spec {bs : List (List ℕ)} (hv : ValidBoundaries bs) :
    ∃ s r, insertAll bs = some s ∧ updateRepresentativeCycles s = some r ∧
      r.1 = (List.range s.nextInsertIndex).filterMap (fun j =>
        match s.cols[j]? with
        | none => none
        | some c =>
          match c.paired with
          | none => some (c.cells.sort (· ≤ ·))
          | some j' => if j < j' then some (c.cells.sort (· ≤ ·)) else none) ∧
      ∀ cyc ∈ r.1, List.Sorted (· ≤ ·) cyc := by
  obtain ⟨s, hins, hinv, _⟩ := insertAll_spec hv
  obtain ⟨r, heq, hr⟩ := repCycles_fold hinv (List.range s.nextInsertIndex)
    (fun i hi => List.mem_range.mp hi) ([], List.replicate s.nextInsertIndex (-1))
  have hr' : r.1 = (List.range s.nextInsertIndex).filterMap (fun j =>
      match s.cols[j]? with
      | none => none
      | some c =>
        match c.paired with
        | none => some (c.cells.sort (· ≤ ·))
        | some j' => if j < j' then some (c.cells.sort (· ≤ ·)) else none) := by
    rw [hr, List.nil_append]
  refine ⟨s, r, hins, heq, hr', ?_⟩
  intro cyc hcyc
  rw [hr'] at hcyc
  obtain ⟨j, _, hj⟩ := List.mem_filterMap.mp hcyc
  rcases hcs : s.cols[j]? with _ | c
  · rw [hcs] at hj
    exact absurd hj (by simp)
  · simp only [hcs] at hj
    rcases hps : c.paired with _ | j'
    · simp only [hps, Option.some.injEq] at hj
      rw [← hj]
      exact Finset.sort_sorted _ _
    · simp only [hps] at hj
      by_cases hij : j < j'
      · rw [if_pos hij] at hj
        simp only [Option.some.injEq] at hj
        rw [← hj]
        exact Finset.sort_sorted _ _
      · rw [if_neg hij] at hj
        exact absurd hj (by simp)

theorem representative_cycles_spec_witness :
    ValidBoundaries [[], [], [0, 1]] ∧
    ∃ s r, insertAll [[], [], [0, 1]] = some s ∧ updateRepresentativeCycles s = some r ∧
      r.1 = (List.range s.nextInsertIndex).filterMap (fun j =>
        match s.cols[j]? with
        | none => none
        | some c =>
          match c.paired with
          | none => some (c.cells.sort (· ≤ ·))
          | some j' => if j < j' then some (c.cells.sort (· ≤ ·)) else none) ∧
      ∀ cyc ∈ r.1, List.Sorted (· ≤ ·) cyc :=
  ⟨by unfold ValidBoundaries; decide,
    representative_cycles_spec (by unfold ValidBoundaries; decide)⟩

end GudhiPM
